import Mathlib

/-!
# Zero-copy relay through an intermediate pipe (`splice.go`)

A shallow embedding of `copyWithOpts` and `Copy`.

The Go code talks to the operating system at a handful of places: `os.Pipe`,
`SyscallConn`, `RawConn.Control` + `unix.FcntlInt`, the readiness guards
`RawConn.Read` / `RawConn.Write`, and `unix.Splice`.  Here the answers of the
operating system are data:

* `Env` holds the answers of the set-up calls and of the readiness guards of
  the two caller-supplied descriptors;
* a script (`List Attempt`) holds, in order, what happens at each guarded
  splice attempt;
* `World` holds the bytes still to be delivered by the source, the bytes
  sitting in the intermediate pipe and the bytes received by the destination.

`copyWithOpts` is a function of these; it yields the returned pair (if the
script is long enough for the call to return), the final `World` and the list
of everything the call did (`Obs`).

Byte counts are `int64`/`int` in the source and `Int` here: a count stays below
`2^63` for any transfer shorter than 8 EiB, so the arithmetic is exact.
-/

namespace Splice

/-! ## Data model -/

/-- One byte of payload. -/
abbrev Byte := Fin 256

/-- The six set-up steps of `copyWithOpts` that build an error message with
`fmt.Errorf` (lines 45, 51, 55, 59, 63, 76). -/
inductive SetupStep where
  | pipes      -- "failed to create splice pipes"
  | srcConn    -- "failed to get raw conn for src FD"
  | dstConn    -- "failed to get raw conn for dst FD"
  | prConn     -- "failed to get raw conn for pipe reader"
  | pwConn     -- "failed to get raw conn for pipe writer"
  | pipeSize   -- "failed to get/set splice pipes size"
  deriving DecidableEq, Repr

/-- A non-nil Go `error` value. `nil` is `none : Option Err`. -/
inductive Err where
  | errno (code : Nat)                          -- a `syscall.Errno`
  | other (tag : Nat)                           -- any other error value of the runtime
  | wrapped (step : SetupStep) (cause : Err)    -- `fmt.Errorf("...: %v", cause)`
  deriving DecidableEq, Repr

/-- Value of `unix.EINTR`. -/
def EINTR : Err := .errno 4

/-- Value of `unix.EAGAIN`. -/
def EAGAIN : Err := .errno 11

/-- Value of `unix.EINVAL`. -/
def EINVAL : Err := .errno 22

/-- Value of `unix.F_SETPIPE_SZ`. -/
def F_SETPIPE_SZ : Int := 1031

/-- Value of `unix.F_GETPIPE_SZ`. -/
def F_GETPIPE_SZ : Int := 1032

/-- The four descriptors a call works with: the caller's `src` and `dst`, and
the two ends `pr` (read end) and `pw` (write end) of the pipe of line 43. -/
inductive Fd where
  | src
  | dst
  | pr
  | pw
  deriving DecidableEq, Repr

/-- Direction of a readiness guard: `RawConn.Read` or `RawConn.Write`. -/
inductive Dir where
  | read
  | write
  deriving DecidableEq, Repr

/-- Identity of a progress callback (`ProgressHandler` is a Go func value;
what it does with its argument is outside the code, so a call is recorded as
an observation). -/
abbrev ProgressHandler := Nat

/-- Type `Options` of the source (lines 21-24); a nil `progress` is `none`. -/
structure Options where
  bufSize : Int := 0
  progress : Option ProgressHandler := none
  deriving DecidableEq, Repr

/-- Type `Option` of the source (line 19): a function that edits `Options`. -/
abbrev CopyOption := Options → Options

/-- Function `WithBufSize` (lines 26-30). -/
def WithBufSize (size : Int) : CopyOption :=
  fun opts => { opts with bufSize := size }

/-- Function `WithProgressHandler` (lines 32-36). -/
def WithProgressHandler (h : Option ProgressHandler) : CopyOption :=
  fun opts => { opts with progress := h }

/-! ## Environment -/

/-- Answers of the operating system and of the Go runtime to the calls that
are not splice attempts.

* `pipes` ... `pwConn`: the error (or nil) of `os.Pipe` and of the four
  `SyscallConn` calls.
* `control`: the error of `prc.Control`; when it is non-nil the callback was
  not run.
* `getPipeSz`, `setPipeSz`: outcome of `fcntl(F_GETPIPE_SZ)` and of
  `fcntl(F_SETPIPE_SZ, arg)`; a successful `fcntl` reports a capacity, which
  is not negative.
* `ready i`: outcome of the `i`-th time a readiness guard of `src` or `dst`
  (`sc.Read`, `dc.Write`) prepares or waits for readiness; nil means the
  descriptor became ready and the callback is run (again). -/
structure Env where
  pipes : Option Err
  srcConn : Option Err
  dstConn : Option Err
  prConn : Option Err
  pwConn : Option Err
  control : Option Err
  getPipeSz : Except Err Nat
  setPipeSz : Int → Except Err Nat
  ready : Nat → Option Err

/-- What happens at one guarded splice attempt (lines 84-90 and 116-122).

* `guardFail e`: the guard of the pipe end (`pwc.Write`, `prc.Read`) returns
  `e` without running its callback, so no splice is issued;
* `fail e`: the splice system call runs and fails with `e`;
* `move k`: the splice system call runs and succeeds; the kernel is able to
  move `k` bytes at this moment (it moves fewer if fewer are requested or
  present). -/
inductive Attempt where
  | guardFail (e : Err)
  | fail (e : Err)
  | move (k : Nat)
  deriving DecidableEq, Repr

/-- Payload held outside the program: `src` is what the source will still
deliver before end-of-stream, `pipe` is the content of the intermediate pipe,
`dst` is what the destination has received. -/
structure World where
  src : List Byte
  pipe : List Byte
  dst : List Byte
  deriving DecidableEq, Repr

/-- World after `n` bytes went from the source into the pipe. -/
def World.fill (w : World) (n : Nat) : World :=
  { w with src := w.src.drop n, pipe := w.pipe ++ w.src.take n }

/-- World after `n` bytes went from the pipe into the destination. -/
def World.flush (w : World) (n : Nat) : World :=
  { w with pipe := w.pipe.drop n, dst := w.dst ++ w.pipe.take n }

/-- Everything a call does that can be seen from outside, in order.

`splice` carries the arguments of the system call, the values of `written`
and of `rem` at the moment of the call, and the returned `(n, err)`.
`check` is one evaluation of the loop condition `rem > 0` (line 112).
`wait fd d` is a callback reporting not-done to the guard of `fd` for
direction `d`, which then waits for readiness. -/
inductive Obs where
  | fcntl (cmd arg : Int)
  | splice (rfd wfd : Fd) (len : Int) (written rem : Int) (n : Int) (err : Option Err)
  | wait (fd : Fd) (d : Dir)
  | check (written rem : Int)
  | progress (h : ProgressHandler) (n : Int)
  | close (fd : Fd)
  deriving DecidableEq, Repr

/-- Outcome of a call on a script: `ret` is the returned `(int64, error)`, or
`none` when the script ends while the call is still in its loop. -/
structure Run where
  ret : Option (Int × Option Err)
  world : World
  log : List Obs
  deriving DecidableEq, Repr

/-- Put observations in front of those of a run. -/
def Run.pre (os : List Obs) (r : Run) : Run :=
  { r with log := os ++ r.log }

/-- A `return n, err` statement. -/
def Run.done (n : Int) (err : Option Err) (w : World) : Run :=
  { ret := some (n, err), world := w, log := [] }

/-- The two deferred calls of lines 47-48, run when the function returns, in
reverse order of the `defer` statements. -/
def Run.deferred (r : Run) : Run :=
  if r.ret.isSome then { r with log := r.log ++ [Obs.close Fd.pw, Obs.close Fd.pr] } else r

/-! ## System calls -/

/-- Call `unix.FcntlInt(fd, cmd, arg)` on the pipe: the returned `(val, err)`. -/
def FcntlInt (env : Env) (cmd arg : Int) : Int × Option Err :=
  if cmd = F_SETPIPE_SZ then
    match env.setPipeSz arg with
    | .ok v => ((v : Int), none)
    | .error e => (-1, some e)
  else if cmd = F_GETPIPE_SZ then
    match env.getPipeSz with
    | .ok v => ((v : Int), none)
    | .error e => (-1, some e)
  else (-1, some EINVAL)

/-- Number of bytes a successful splice moves: at most the `k` the kernel can
move now, at most the requested `len`, at most what the input holds. -/
def moved (k : Nat) (len : Int) (avail : Nat) : Nat :=
  min k (min len.toNat avail)

/-- Function `splice` (lines 38-40), a non-blocking `unix.Splice` from `rfd`
to `wfd` of at most `len` bytes, on outcome `a` of the environment: the
returned `(n, err)` and the world after the call.  A failing call returns
`n = -1` and moves nothing.  The code only splices from the source into the
write end of the pipe and from the read end of the pipe into the
destination; any other pair of descriptors is answered with `EINVAL`.  (On
`guardFail` the loop does not get as far as calling this function.) -/
def splice (rfd wfd : Fd) (len : Int) (a : Attempt) (w : World) : (Int × Option Err) × World :=
  match a with
  | .guardFail e => ((-1, some e), w)
  | .fail e => ((-1, some e), w)
  | .move k =>
    match rfd, wfd with
    | .src, .pw =>
      let n := moved k len w.src.length
      (((n : Int), none), w.fill n)
    | .pr, .dst =>
      let n := moved k len w.pipe.length
      (((n : Int), none), w.flush n)
    | _, _ => ((-1, some EINVAL), w)

/-! ## The transfer loop -/

/-- The two stages of the loop body: lines 82-110 move from the source into
the pipe, lines 112-139 move from the pipe into the destination. -/
inductive Stage where
  | source
  | drain
  deriving DecidableEq, Repr

/-- Descriptor a stage splices from. -/
def Stage.rfd : Stage → Fd
  | .source => .src
  | .drain => .pr

/-- Descriptor a stage splices to. -/
def Stage.wfd : Stage → Fd
  | .source => .pw
  | .drain => .dst

/-- Descriptor whose guard encloses the stage: `sc.Read` (line 82) for the
source stage, `dc.Write` (line 114) for the drain stage. -/
def Stage.guardFd : Stage → Fd
  | .source => .src
  | .drain => .dst

/-- Direction of the enclosing guard. -/
def Stage.guardDir : Stage → Dir
  | .source => .read
  | .drain => .write

/-- Variables of the loop: `written` (line 78) and `rem` (line 111).  `rem`
is scoped to one iteration in the source; here it keeps its last value
between iterations and is 0 before the first one. -/
structure Loop where
  written : Int
  rem : Int
  deriving DecidableEq, Repr

/-- Stage chosen by the loop condition `rem > 0` of line 112: the drain
stage while it holds, else the next iteration of the outer loop. -/
def Loop.stage (st : Loop) : Stage :=
  if st.rem > 0 then .drain else .source

/-- Lines 108-110: the progress handler, when one is configured, is called
with `n`. -/
def notify (progress : Option ProgressHandler) (n : Int) : List Obs :=
  match progress with
  | some h => [Obs.progress h n]
  | none => []

/-- The loop of lines 79-140, from the point where the callback of the
enclosing guard is running in stage `stage`; `g` counts the consultations of
`env.ready` so far.  Each splice attempt takes one element of the script. -/
def attempts (env : Env) (progress : Option ProgressHandler) (maxLen : Int) :
    Stage → Nat → Loop → World → List Attempt → Run
  | _, _, _, w, [] => { ret := none, world := w, log := [] }
  | stage, g, st, w, a :: rest =>
    match a with
    | .guardFail e =>
      -- lines 87-90 / 119-122: err = werr; the callback returns true
      Run.done st.written (some e) w
    | _ =>
      let r := splice stage.rfd stage.wfd maxLen a w
      let n := r.1.1
      let err := r.1.2
      let w1 := r.2
      Run.pre [Obs.splice stage.rfd stage.wfd maxLen st.written st.rem n err] <|
      match err with
      | some e =>
        if e = EINTR then
          -- lines 91-93 / 123-125: continue
          attempts env progress maxLen stage g st w1 rest
        else if e = EAGAIN then
          -- lines 94-96 / 126-128: return false, the guard waits
          Run.pre [Obs.wait stage.guardFd stage.guardDir] <|
          match env.ready g with
          | some serr => Run.done st.written (some serr) w1
          | none => attempts env progress maxLen stage (g + 1) st w1 rest
        else
          -- lines 102-104 / 134-136
          Run.done st.written (some e) w1
      | none =>
        match stage with
        | .source =>
          if n = 0 then
            -- lines 105-107
            Run.done st.written none w1
          else
            -- lines 108-112: progress call, rem := inPipe, loop condition,
            -- then the guard `dc.Write` of line 114 is entered
            let st1 : Loop := { st with rem := n }
            Run.pre (notify progress n ++ [Obs.check st1.written st1.rem]) <|
            match env.ready g with
            | some e => Run.done st1.written (some e) w1
            | none => attempts env progress maxLen st1.stage (g + 1) st1 w1 rest
        | .drain =>
          -- lines 137-138, then the loop condition of line 112 and the guard of
          -- the stage it selects (`dc.Write` again, or `sc.Read` of line 82)
          let st1 : Loop := { written := st.written + n, rem := st.rem - n }
          Run.pre [Obs.check st1.written st1.rem] <|
          match env.ready g with
          | some e => Run.done st1.written (some e) w1
          | none => attempts env progress maxLen st1.stage (g + 1) st1 w1 rest

/-- Lines 78-141: `written` starts at 0 and the first guard `sc.Read` is
entered. -/
def pump (env : Env) (progress : Option ProgressHandler) (maxLen : Int)
    (w : World) (script : List Attempt) : Run :=
  match env.ready 0 with
  | some e => Run.done 0 (some e) w
  | none => attempts env progress maxLen .source 1 { written := 0, rem := 0 } w script

/-- The `fcntl` command chosen in lines 66-69. -/
def pipeCmd (opts : Options) : Int :=
  if opts.bufSize > 0 then F_SETPIPE_SZ else F_GETPIPE_SZ

/-- Function `copyWithOpts` (lines 42-141).  `src` is what the source will
deliver before end-of-stream, `dst` what the destination already holds. -/
def copyWithOpts (env : Env) (opts : Options) (src dst : List Byte)
    (script : List Attempt) : Run :=
  let w : World := { src := src, pipe := [], dst := dst }
  match env.pipes with
  | some e => Run.done 0 (some (.wrapped .pipes e)) w
  | none =>
    Run.deferred <|
    match env.srcConn with
    | some e => Run.done 0 (some (.wrapped .srcConn e)) w
    | none =>
    match env.dstConn with
    | some e => Run.done 0 (some (.wrapped .dstConn e)) w
    | none =>
    match env.prConn with
    | some e => Run.done 0 (some (.wrapped .prConn e)) w
    | none =>
    match env.pwConn with
    | some e => Run.done 0 (some (.wrapped .pwConn e)) w
    | none =>
    let cmd := pipeCmd opts
    match env.control with
    | some cerr => Run.done 0 (some (.wrapped .pipeSize cerr)) w
    | none =>
    let r := FcntlInt env cmd opts.bufSize
    Run.pre [Obs.fcntl cmd opts.bufSize] <|
    match r.2 with
    | some e => Run.done 0 (some (.wrapped .pipeSize e)) w
    | none => pump env opts.progress r.1 w script

/-- Lines 144-147 of `Copy`: the options are applied in order to the zero
value of `Options`. -/
def resolve (opts : List CopyOption) : Options :=
  opts.foldl (fun o opt => opt o) {}

/-- Function `Copy` (lines 143-149). -/
def Copy (env : Env) (opts : List CopyOption) (src dst : List Byte)
    (script : List Attempt) : Run :=
  copyWithOpts env (resolve opts) src dst script

/-! ## Reading a run -/

/-- Arguments of the progress-handler calls, in order. -/
def progressArgs (log : List Obs) : List Int :=
  log.filterMap fun o =>
    match o with
    | .progress _ n => some n
    | _ => none

/-- Byte counts of the pipe-to-destination moves that succeeded, in order. -/
def flushedCounts (log : List Obs) : List Int :=
  log.filterMap fun o =>
    match o with
    | .splice .pr .dst _ _ _ n none => some n
    | _ => none

/-- Descriptors closed, in order. -/
def closes (log : List Obs) : List Fd :=
  log.filterMap fun o =>
    match o with
    | .close fd => some fd
    | _ => none

/-- The `fcntl` calls issued on the pipe, as `(cmd, arg)`, in order. -/
def fcntls (log : List Obs) : List (Int × Int) :=
  log.filterMap fun o =>
    match o with
    | .fcntl cmd arg => some (cmd, arg)
    | _ => none

/-- Whether an observation is a capacity operation. -/
def Obs.isFcntl : Obs → Bool
  | .fcntl _ _ => true
  | _ => false

/-- The capacity `maxLen` used as the length of every splice call of a run:
the value returned by the capacity operation of lines 70-72. -/
def effectiveCapacity (env : Env) (opts : Options) : Int :=
  (FcntlInt env (pipeCmd opts) opts.bufSize).1

/-- What a caller of `Copy` sees of a run: the returned pair, the payload
on both sides and the calls of the progress handler. -/
def Run.view (r : Run) : Option (Int × Option Err) × World × List Obs :=
  (r.ret, r.world, r.log.filter fun o =>
    match o with
    | .progress _ _ => true
    | _ => false)

/-- Every set-up step before the loop succeeds and the capacity operation
reports `cap`. -/
def setupOk (env : Env) (opts : Options) (cap : Nat) : Prop :=
  env.pipes = none ∧ env.srcConn = none ∧ env.dstConn = none ∧ env.prConn = none ∧
  env.pwConn = none ∧ env.control = none ∧
  FcntlInt env (pipeCmd opts) opts.bufSize = ((cap : Int), none)

instance (env : Env) (opts : Options) (cap : Nat) : Decidable (setupOk env opts cap) := by
  unfold setupOk
  exact inferInstance

/-- Invariant of the loop: the stage is the one the loop condition selects,
`rem` counts the bytes in the pipe and does not exceed `maxLen`. -/
def Inv (maxLen : Int) (stage : Stage) (st : Loop) (w : World) : Prop :=
  stage = st.stage ∧ st.rem = w.pipe.length ∧ st.rem ≤ maxLen

instance (maxLen : Int) (stage : Stage) (st : Loop) (w : World) :
    Decidable (Inv maxLen stage st w) := by
  unfold Inv
  exact inferInstance

/-- Shape of an observation made inside the loop when `Inv` holds. -/
def Obs.inLoop (progress : Option ProgressHandler) (maxLen : Int) : Obs → Prop
  | .splice rfd wfd len _ rem n err =>
      len = maxLen ∧ 0 ≤ rem ∧ rem ≤ maxLen ∧
      ((rfd = .src ∧ wfd = .pw ∧ rem = 0) ∨ (rfd = .pr ∧ wfd = .dst ∧ 0 < rem)) ∧
      (err = none → 0 ≤ n ∧ n ≤ maxLen ∧ (rfd = .pr → n ≤ rem))
  | .wait fd d => (fd = .src ∧ d = .read) ∨ (fd = .dst ∧ d = .write)
  | .check _ rem => 0 ≤ rem ∧ rem ≤ maxLen
  | .progress h _ => progress = some h
  | .fcntl _ _ => False
  | .close _ => False

instance (progress : Option ProgressHandler) (maxLen : Int) (o : Obs) :
    Decidable (Obs.inLoop progress maxLen o) := by
  cases o <;> unfold Obs.inLoop <;> exact inferInstance

/-- A splice attempt that is interrupted, not ready, or moves at least one
byte when at least one byte is present and requested. -/
def Attempt.benign : Attempt → Bool
  | .fail e => e = EINTR || e = EAGAIN
  | .move k => 0 < k
  | .guardFail _ => false

/-- A splice attempt on which the system call runs and succeeds. -/
def Attempt.isMove : Attempt → Bool
  | .move _ => true
  | _ => false

/-- A splice attempt that fails with `EINTR` or with `EAGAIN`. -/
def Attempt.transient : Attempt → Bool
  | .fail e => e = EINTR || e = EAGAIN
  | _ => false

/-! ## A concrete setting -/

/-- An environment in which every set-up step succeeds, the pipe has the
default capacity 65536, a capacity set reports `cap`, and `src` and `dst`
never fail to become ready. -/
def quietEnv (cap : Nat) : Env :=
  { pipes := none, srcConn := none, dstConn := none, prConn := none, pwConn := none,
    control := none, getPipeSz := .ok 65536, setPipeSz := fun _ => .ok cap,
    ready := fun _ => none }

/-- An environment in which `os.Pipe` fails with `EMFILE`. -/
def noPipeEnv : Env :=
  { quietEnv 0 with pipes := some (.errno 24) }

/-- The ten bytes of "ABCDEFGHIJ". -/
def tenBytes : List Byte := [65, 66, 67, 68, 69, 70, 71, 72, 73, 74]

/-- A script with two transient failures and twenty-one successful moves. -/
def busyScript : List Attempt :=
  [.fail EAGAIN, .move 4, .fail EINTR] ++ List.replicate 20 (.move 4096)

/-- A script of three successful moves. -/
def shortScript : List Attempt := [.move 4096, .move 4096, .move 4096]

/-! ## Unfolding the loop -/

theorem attempts_cons_fail (env : Env) (progress : Option ProgressHandler) (maxLen : Int)
    (stage : Stage) (g : Nat) (st : Loop) (w : World) (e : Err) (rest : List Attempt) :
    attempts env progress maxLen stage g st w (.fail e :: rest) =
      Run.pre [Obs.splice stage.rfd stage.wfd maxLen st.written st.rem (-1) (some e)]
        (if e = EINTR then attempts env progress maxLen stage g st w rest
         else if e = EAGAIN then
           Run.pre [Obs.wait stage.guardFd stage.guardDir]
             (match env.ready g with
              | some serr => Run.done st.written (some serr) w
              | none => attempts env progress maxLen stage (g + 1) st w rest)
         else Run.done st.written (some e) w) := by
  simp [attempts, splice]

theorem attempts_nil (env : Env) (progress : Option ProgressHandler) (maxLen : Int)
    (stage : Stage) (g : Nat) (st : Loop) (w : World) :
    attempts env progress maxLen stage g st w [] = { ret := none, world := w, log := [] } := by
  cases stage <;> rfl

theorem attempts_cons_guardFail (env : Env) (progress : Option ProgressHandler) (maxLen : Int)
    (stage : Stage) (g : Nat) (st : Loop) (w : World) (e : Err) (rest : List Attempt) :
    attempts env progress maxLen stage g st w (.guardFail e :: rest) =
      Run.done st.written (some e) w := by
  simp [attempts]

theorem attempts_cons_move_source (env : Env) (progress : Option ProgressHandler) (maxLen : Int)
    (g : Nat) (st : Loop) (w : World) (k : Nat) (rest : List Attempt) :
    attempts env progress maxLen .source g st w (.move k :: rest) =
      Run.pre [Obs.splice .src .pw maxLen st.written st.rem (moved k maxLen w.src.length) none]
        (if moved k maxLen w.src.length = 0 then
           Run.done st.written none (w.fill (moved k maxLen w.src.length))
         else
           Run.pre (notify progress (moved k maxLen w.src.length) ++
                    [Obs.check st.written (moved k maxLen w.src.length)])
             (match env.ready g with
              | some e => Run.done st.written (some e) (w.fill (moved k maxLen w.src.length))
              | none =>
                attempts env progress maxLen
                  (Loop.stage { st with rem := moved k maxLen w.src.length }) (g + 1)
                  { st with rem := moved k maxLen w.src.length }
                  (w.fill (moved k maxLen w.src.length)) rest)) := by
  simp [attempts, splice, Stage.rfd, Stage.wfd]

theorem attempts_cons_move_drain (env : Env) (progress : Option ProgressHandler) (maxLen : Int)
    (g : Nat) (st : Loop) (w : World) (k : Nat) (rest : List Attempt) :
    attempts env progress maxLen .drain g st w (.move k :: rest) =
      Run.pre [Obs.splice .pr .dst maxLen st.written st.rem (moved k maxLen w.pipe.length) none,
               Obs.check (st.written + moved k maxLen w.pipe.length)
                 (st.rem - moved k maxLen w.pipe.length)]
        (match env.ready g with
         | some e =>
           Run.done (st.written + moved k maxLen w.pipe.length) (some e)
             (w.flush (moved k maxLen w.pipe.length))
         | none =>
           attempts env progress maxLen
             (Loop.stage { written := st.written + moved k maxLen w.pipe.length,
                           rem := st.rem - moved k maxLen w.pipe.length }) (g + 1)
             { written := st.written + moved k maxLen w.pipe.length,
               rem := st.rem - moved k maxLen w.pipe.length }
             (w.flush (moved k maxLen w.pipe.length)) rest) := by
  simp [attempts, splice, Stage.rfd, Stage.wfd, Run.pre]

theorem mem_pre_log (os : List Obs) (r : Run) (o : Obs) :
    o ∈ (Run.pre os r).log ↔ o ∈ os ∨ o ∈ r.log := by
  simp [Run.pre]

theorem moved_le_len (k : Nat) (len : Int) (avail : Nat) (h : moved k len avail ≠ 0) :
    (moved k len avail : Int) ≤ len := by
  unfold moved at *
  omega

theorem moved_le_avail (k : Nat) (len : Int) (avail : Nat) : moved k len avail ≤ avail := by
  unfold moved
  omega

theorem inv_source {maxLen : Int} {st : Loop} {w : World} (h : Inv maxLen .source st w) :
    st.rem = 0 ∧ w.pipe = [] := by
  obtain ⟨h1, h2, _⟩ := h
  have h0 : ¬ st.rem > 0 := by
    intro hp
    simp [Loop.stage, hp] at h1
  have : (w.pipe.length : Int) = 0 := by omega
  refine ⟨by omega, ?_⟩
  exact List.length_eq_zero.mp (by exact_mod_cast this)

theorem inv_drain {maxLen : Int} {st : Loop} {w : World} (h : Inv maxLen .drain st w) :
    0 < st.rem := by
  obtain ⟨h1, _, _⟩ := h
  by_contra hp
  simp [Loop.stage, hp] at h1

theorem inv_fill {maxLen : Int} {st : Loop} {w : World} (h : Inv maxLen .source st w)
    (k : Nat) (hn : moved k maxLen w.src.length ≠ 0) :
    Inv maxLen (Loop.stage { st with rem := moved k maxLen w.src.length })
      { st with rem := moved k maxLen w.src.length } (w.fill (moved k maxLen w.src.length)) := by
  obtain ⟨_, hp⟩ := inv_source h
  refine ⟨rfl, ?_, moved_le_len _ _ _ hn⟩
  have := moved_le_avail k maxLen w.src.length
  simp [World.fill, hp]
  omega

theorem inv_flush {maxLen : Int} {st : Loop} {w : World} (h : Inv maxLen .drain st w) (k : Nat) :
    Inv maxLen
      (Loop.stage { written := st.written + moved k maxLen w.pipe.length,
                    rem := st.rem - moved k maxLen w.pipe.length })
      { written := st.written + moved k maxLen w.pipe.length,
        rem := st.rem - moved k maxLen w.pipe.length }
      (w.flush (moved k maxLen w.pipe.length)) := by
  obtain ⟨_, h2, h3⟩ := h
  have := moved_le_avail k maxLen w.pipe.length
  refine ⟨rfl, ?_, ?_⟩
  · simp [World.flush]
    omega
  · simp
    omega

theorem attempts_log (env : Env) (progress : Option ProgressHandler) (maxLen : Int)
    (script : List Attempt) :
    ∀ (stage : Stage) (g : Nat) (st : Loop) (w : World), Inv maxLen stage st w →
      ∀ o ∈ (attempts env progress maxLen stage g st w script).log,
        Obs.inLoop progress maxLen o := by
  induction script with
  | nil =>
    intro stage g st w _ o ho
    simp [attempts_nil] at ho
  | cons a rest ih =>
    intro stage g st w hinv o ho
    have hrem : 0 ≤ st.rem ∧ st.rem ≤ maxLen := by
      obtain ⟨_, h2, h3⟩ := hinv
      omega
    have hfd : (stage.rfd = .src ∧ stage.wfd = .pw ∧ st.rem = 0) ∨
        (stage.rfd = .pr ∧ stage.wfd = .dst ∧ 0 < st.rem) := by
      cases stage
      · exact Or.inl ⟨rfl, rfl, (inv_source hinv).1⟩
      · exact Or.inr ⟨rfl, rfl, inv_drain hinv⟩
    cases a with
    | guardFail e =>
      simp [attempts_cons_guardFail, Run.done] at ho
    | fail e =>
      rw [attempts_cons_fail, mem_pre_log] at ho
      rcases ho with ho | ho
      · simp at ho
        subst ho
        exact ⟨rfl, hrem.1, hrem.2, hfd, by simp⟩
      · by_cases h1 : e = EINTR
        · rw [if_pos h1] at ho
          exact ih stage g st w hinv o ho
        · rw [if_neg h1] at ho
          by_cases h2 : e = EAGAIN
          · rw [if_pos h2, mem_pre_log] at ho
            rcases ho with ho | ho
            · simp at ho
              subst ho
              cases stage <;> simp [Obs.inLoop, Stage.guardFd, Stage.guardDir]
            · cases hr : env.ready g with
              | some serr => simp [hr, Run.done] at ho
              | none =>
                simp only [hr] at ho
                exact ih stage (g + 1) st w hinv o ho
          · rw [if_neg h2] at ho
            simp [Run.done] at ho
    | move k =>
      cases stage with
      | source =>
        rw [attempts_cons_move_source, mem_pre_log] at ho
        rcases ho with ho | ho
        · simp at ho
          subst ho
          refine ⟨rfl, hrem.1, hrem.2, hfd, fun _ => ⟨by omega, ?_, by simp⟩⟩
          by_cases hz : moved k maxLen w.src.length = 0
          · rw [hz]; simpa using le_trans hrem.1 hrem.2
          · exact moved_le_len _ _ _ hz
        · by_cases hz : moved k maxLen w.src.length = 0
          · simp [hz, Run.done] at ho
          · rw [if_neg hz, mem_pre_log] at ho
            rcases ho with ho | ho
            · simp at ho
              rcases ho with ho | ho
              · cases progress with
                | none => simp [notify] at ho
                | some h =>
                  simp [notify] at ho
                  subst ho
                  simp [Obs.inLoop]
              · subst ho
                exact ⟨by simp, moved_le_len _ _ _ hz⟩
            · cases hr : env.ready g with
              | some serr => simp [hr, Run.done] at ho
              | none =>
                simp only [hr] at ho
                exact ih _ (g + 1) _ _ (inv_fill hinv k hz) o ho
      | drain =>
        rw [attempts_cons_move_drain, mem_pre_log] at ho
        have hle := moved_le_avail k maxLen w.pipe.length
        have hpl : st.rem = w.pipe.length := hinv.2.1
        rcases ho with ho | ho
        · simp at ho
          rcases ho with ho | ho
          · subst ho
            refine ⟨rfl, hrem.1, hrem.2, hfd, fun _ => ⟨by omega, by omega, fun _ => by omega⟩⟩
          · subst ho
            exact ⟨by omega, by omega⟩
        · cases hr : env.ready g with
          | some serr => simp [hr, Run.done] at ho
          | none =>
            simp only [hr] at ho
            exact ih _ (g + 1) _ _ (inv_flush hinv k) o ho

theorem moved_pos (k : Nat) (len : Int) (avail : Nat) (hk : 0 < k) (hl : 0 < len)
    (ha : 0 < avail) : 0 < moved k len avail := by
  unfold moved
  omega

theorem pre_ret (os : List Obs) (r : Run) : (Run.pre os r).ret = r.ret := rfl

theorem pre_world (os : List Obs) (r : Run) : (Run.pre os r).world = r.world := rfl

theorem attempts_total (env : Env) (progress : Option ProgressHandler) (maxLen : Int)
    (hmax : 0 < maxLen) (hready : ∀ g, env.ready g = none) (script more : List Attempt) :
    ∀ (stage : Stage) (g : Nat) (st : Loop) (w : World), Inv maxLen stage st w →
      (∀ a ∈ script, a.benign = true) →
      2 * w.src.length + w.pipe.length + 1 ≤ script.countP Attempt.isMove →
      (attempts env progress maxLen stage g st w (script ++ more)).ret =
          some (st.written + w.pipe.length + w.src.length, none) ∧
        (attempts env progress maxLen stage g st w (script ++ more)).world =
          { src := [], pipe := [], dst := w.dst ++ w.pipe ++ w.src } := by
  induction script with
  | nil =>
    intro stage g st w _ _ hc
    simp at hc
  | cons a rest ih =>
    intro stage g st w hinv hb hc
    have hbr : ∀ a ∈ rest, a.benign = true := fun a ha => hb a (List.mem_cons_of_mem _ ha)
    have hba := hb a (List.mem_cons_self _ _)
    cases a with
    | guardFail e => simp [Attempt.benign] at hba
    | fail e =>
      have hc2 : 2 * w.src.length + w.pipe.length + 1 ≤ rest.countP Attempt.isMove := by
        simpa [List.countP_cons, Attempt.isMove] using hc
      rw [List.cons_append, attempts_cons_fail]
      by_cases h1 : e = EINTR
      · simp only [if_pos h1, pre_ret, pre_world]
        exact ih stage g st w hinv hbr hc2
      · have h2 : e = EAGAIN := by simpa [Attempt.benign, h1] using hba
        simp only [if_neg h1, if_pos h2, hready, pre_ret, pre_world]
        exact ih stage (g + 1) st w hinv hbr hc2
    | move k =>
      have hk : 0 < k := by simpa [Attempt.benign] using hba
      have hc2 : 2 * w.src.length + w.pipe.length ≤ rest.countP Attempt.isMove := by
        simpa [List.countP_cons, Attempt.isMove] using hc
      cases stage with
      | source =>
        obtain ⟨_, hp⟩ := inv_source hinv
        rw [List.cons_append, attempts_cons_move_source]
        by_cases hz : moved k maxLen w.src.length = 0
        · have hs : w.src = [] := by
            by_contra hne
            have := moved_pos k maxLen w.src.length hk hmax (List.length_pos.mpr hne)
            omega
          rw [if_pos hz]
          simp [Run.done, pre_ret, pre_world, hp, hs, World.fill]
        · simp only [if_neg hz, hready, pre_ret, pre_world]
          have hle := moved_le_avail k maxLen w.src.length
          have hi := ih _ (g + 1) _ _ (inv_fill hinv k hz) hbr (by
            simp [World.fill, hp]
            omega)
          rw [hi.1, hi.2]
          constructor
          · simp [World.fill, hp]
            omega
          · simp [World.fill, hp]
      | drain =>
        have hpos := inv_drain hinv
        have hpl : st.rem = w.pipe.length := hinv.2.1
        have hle := moved_le_avail k maxLen w.pipe.length
        have hm := moved_pos k maxLen w.pipe.length hk hmax (by omega)
        rw [List.cons_append, attempts_cons_move_drain]
        simp only [hready, pre_ret, pre_world]
        have hi := ih _ (g + 1) _ _ (inv_flush hinv k) hbr (by
          simp [World.flush]
          omega)
        rw [hi.1, hi.2]
        constructor
        · simp [World.flush]
          omega
        · simp [World.flush]


theorem pre_log (os : List Obs) (r : Run) : (Run.pre os r).log = os ++ r.log := rfl

theorem flushedCounts_append (a b : List Obs) :
    flushedCounts (a ++ b) = flushedCounts a ++ flushedCounts b := by
  simp [flushedCounts]

theorem progressArgs_append (a b : List Obs) :
    progressArgs (a ++ b) = progressArgs a ++ progressArgs b := by
  simp [progressArgs]

theorem closes_append (a b : List Obs) : closes (a ++ b) = closes a ++ closes b := by
  simp [closes]

theorem fcntls_append (a b : List Obs) : fcntls (a ++ b) = fcntls a ++ fcntls b := by
  simp [fcntls]

/-- The payload is conserved in order by the loop, and on return `written`
has grown by the total of the successful pipe-to-destination moves, which is
also the growth of the destination. -/
theorem attempts_account (env : Env) (progress : Option ProgressHandler) (maxLen : Int)
    (script : List Attempt) :
    ∀ (stage : Stage) (g : Nat) (st : Loop) (w : World),
      ((attempts env progress maxLen stage g st w script).world.dst ++
          (attempts env progress maxLen stage g st w script).world.pipe ++
          (attempts env progress maxLen stage g st w script).world.src =
        w.dst ++ w.pipe ++ w.src) ∧
      ∀ n e, (attempts env progress maxLen stage g st w script).ret = some (n, e) →
        n = st.written +
            (flushedCounts (attempts env progress maxLen stage g st w script).log).sum ∧
        ((attempts env progress maxLen stage g st w script).world.dst.length : Int) =
          w.dst.length +
            (flushedCounts (attempts env progress maxLen stage g st w script).log).sum := by
  induction script with
  | nil =>
    intro stage g st w
    simp [attempts_nil]
  | cons a rest ih =>
    intro stage g st w
    cases a with
    | guardFail e =>
      simp [attempts_cons_guardFail, Run.done, flushedCounts]
    | fail e =>
      rw [attempts_cons_fail]
      have hobs : flushedCounts
          [Obs.splice stage.rfd stage.wfd maxLen st.written st.rem (-1) (some e)] = [] := by
        cases stage <;> simp [flushedCounts, Stage.rfd, Stage.wfd]
      simp only [pre_ret, pre_world, pre_log, flushedCounts_append, hobs, List.nil_append]
      by_cases h1 : e = EINTR
      · simp only [if_pos h1]
        exact ih stage g st w
      · by_cases h2 : e = EAGAIN
        · simp only [if_neg h1, if_pos h2, pre_ret, pre_world, pre_log, flushedCounts_append]
          cases hr : env.ready g with
          | some serr => simp [Run.done, flushedCounts]
          | none =>
            have := ih stage (g + 1) st w
            simpa [flushedCounts] using this
        · simp [if_neg h1, if_neg h2, Run.done, flushedCounts]
    | move k =>
      cases stage with
      | source =>
        rw [attempts_cons_move_source]
        by_cases hz : moved k maxLen w.src.length = 0
        · rw [if_pos hz]
          simp [Run.done, pre_ret, pre_world, pre_log, flushedCounts, World.fill]
        · rw [if_neg hz]
          cases hr : env.ready g with
          | some serr =>
            cases progress <;>
              simp [Run.done, flushedCounts, World.fill, notify, pre_ret, pre_world, pre_log]
          | none =>
            have := ih (Loop.stage { st with rem := moved k maxLen w.src.length }) (g + 1)
              { st with rem := moved k maxLen w.src.length }
              (w.fill (moved k maxLen w.src.length))
            cases progress <;>
              simpa [World.fill, flushedCounts, notify, pre_ret, pre_world, pre_log] using this
      | drain =>
        rw [attempts_cons_move_drain]
        have hle := moved_le_avail k maxLen w.pipe.length
        cases hr : env.ready g with
        | some serr =>
          simp [Run.done, flushedCounts, World.flush, pre_ret, pre_world, pre_log]
          omega
        | none =>
          obtain ⟨h1, h2⟩ := ih
            (Loop.stage (Loop.mk (st.written + moved k maxLen w.pipe.length)
              (st.rem - moved k maxLen w.pipe.length))) (g + 1)
            (Loop.mk (st.written + moved k maxLen w.pipe.length)
              (st.rem - moved k maxLen w.pipe.length)) (w.flush (moved k maxLen w.pipe.length))
          refine ⟨?_, ?_⟩
          · rw [pre_world, h1]
            simp [World.flush]
          · intro n e hne
            rw [pre_ret] at hne
            obtain ⟨h3, h4⟩ := h2 n e hne
            rw [pre_log, flushedCounts_append, List.sum_append, pre_world]
            have hs : flushedCounts
                [Obs.splice .pr .dst maxLen st.written st.rem (moved k maxLen w.pipe.length) none,
                 Obs.check (st.written + moved k maxLen w.pipe.length)
                   (st.rem - moved k maxLen w.pipe.length)] =
                [((moved k maxLen w.pipe.length : Nat) : Int)] := by
              simp [flushedCounts]
            have hd : (w.flush (moved k maxLen w.pipe.length)).dst.length =
                w.dst.length + moved k maxLen w.pipe.length := by
              simp [World.flush, hle]
            rw [hs]
            rw [hd] at h4
            simp only [List.sum_cons, List.sum_nil, add_zero]
            constructor
            · rw [h3]
              ring
            · rw [h4]
              push_cast
              ring

/-- On a successful return the final count is `written`, plus what is still
in the pipe, plus everything announced to the progress handler from here on. -/
theorem attempts_progress (env : Env) (h : ProgressHandler) (maxLen : Int)
    (script : List Attempt) :
    ∀ (stage : Stage) (g : Nat) (st : Loop) (w : World), Inv maxLen stage st w →
      ∀ n, (attempts env (some h) maxLen stage g st w script).ret = some (n, none) →
        n = st.written + st.rem +
            (progressArgs (attempts env (some h) maxLen stage g st w script).log).sum := by
  induction script with
  | nil =>
    intro stage g st w _ n hn
    simp [attempts_nil] at hn
  | cons a rest ih =>
    intro stage g st w hinv n hn
    cases a with
    | guardFail e => simp [attempts_cons_guardFail, Run.done] at hn
    | fail e =>
      rw [attempts_cons_fail] at hn ⊢
      rw [pre_ret] at hn
      rw [pre_log, progressArgs_append]
      have hs : progressArgs
          [Obs.splice stage.rfd stage.wfd maxLen st.written st.rem (-1) (some e)] = [] := by
        simp [progressArgs]
      rw [hs, List.nil_append]
      by_cases h1 : e = EINTR
      · rw [if_pos h1] at hn ⊢
        exact ih stage g st w hinv n hn
      · rw [if_neg h1] at hn ⊢
        by_cases h2 : e = EAGAIN
        · rw [if_pos h2] at hn ⊢
          rw [pre_ret] at hn
          rw [pre_log, progressArgs_append]
          cases hr : env.ready g with
          | some serr => simp [hr, Run.done] at hn
          | none =>
            simp only [hr] at hn ⊢
            have := ih stage (g + 1) st w hinv n hn
            simpa [progressArgs] using this
        · rw [if_neg h2] at hn
          simp [Run.done] at hn
    | move k =>
      cases stage with
      | source =>
        obtain ⟨hr0, _⟩ := inv_source hinv
        rw [attempts_cons_move_source] at hn ⊢
        rw [pre_ret] at hn
        by_cases hz : moved k maxLen w.src.length = 0
        · rw [if_pos hz] at hn ⊢
          simp [Run.done] at hn
          simp [Run.done, pre_log, progressArgs, hr0, hn]
        · rw [if_neg hz] at hn ⊢
          rw [pre_ret] at hn
          cases hr : env.ready g with
          | some serr => simp [hr, Run.done] at hn
          | none =>
            simp only [hr] at hn ⊢
            have := ih _ (g + 1) _ _ (inv_fill hinv k hz) n hn
            simp only [pre_log, progressArgs_append, List.sum_append]
            rw [this]
            simp [progressArgs, notify, hr0]
            ring
      | drain =>
        rw [attempts_cons_move_drain] at hn ⊢
        rw [pre_ret] at hn
        cases hr : env.ready g with
        | some serr => simp [hr, Run.done] at hn
        | none =>
          simp only [hr] at hn ⊢
          have := ih _ (g + 1) _ _ (inv_flush hinv k) n hn
          simp only [pre_log, progressArgs_append, List.sum_append]
          rw [this]
          simp [progressArgs]

/-- Where a returned error comes from: a readiness guard of `src` or `dst`,
a guard of a pipe end, or a splice that failed with something other than
`EINTR` and `EAGAIN`. -/
theorem attempts_err_origin (env : Env) (progress : Option ProgressHandler) (maxLen : Int)
    (script : List Attempt) :
    ∀ (stage : Stage) (g : Nat) (st : Loop) (w : World) (n : Int) (e : Err),
      (attempts env progress maxLen stage g st w script).ret = some (n, some e) →
        (∃ i, env.ready i = some e) ∨ Attempt.guardFail e ∈ script ∨
          (Attempt.fail e ∈ script ∧ e ≠ EINTR ∧ e ≠ EAGAIN) := by
  induction script with
  | nil =>
    intro stage g st w n e hn
    simp [attempts_nil] at hn
  | cons a rest ih =>
    intro stage g st w n e hn
    have lift : ((∃ i, env.ready i = some e) ∨ Attempt.guardFail e ∈ rest ∨
          (Attempt.fail e ∈ rest ∧ e ≠ EINTR ∧ e ≠ EAGAIN)) →
        ((∃ i, env.ready i = some e) ∨ Attempt.guardFail e ∈ a :: rest ∨
          (Attempt.fail e ∈ a :: rest ∧ e ≠ EINTR ∧ e ≠ EAGAIN)) := by
      rintro (h | h | ⟨h, h1, h2⟩)
      · exact Or.inl h
      · exact Or.inr (Or.inl (List.mem_cons_of_mem _ h))
      · exact Or.inr (Or.inr ⟨List.mem_cons_of_mem _ h, h1, h2⟩)
    cases a with
    | guardFail e1 =>
      simp [attempts_cons_guardFail, Run.done] at hn
      simp [hn.2]
    | fail e1 =>
      rw [attempts_cons_fail, pre_ret] at hn
      by_cases h1 : e1 = EINTR
      · rw [if_pos h1] at hn
        exact lift (ih stage g st w n e hn)
      · rw [if_neg h1] at hn
        by_cases h2 : e1 = EAGAIN
        · rw [if_pos h2, pre_ret] at hn
          cases hr : env.ready g with
          | some serr =>
            simp [hr, Run.done] at hn
            exact Or.inl ⟨g, by rw [hr, hn.2]⟩
          | none =>
            simp only [hr] at hn
            exact lift (ih stage (g + 1) st w n e hn)
        · rw [if_neg h2] at hn
          simp [Run.done] at hn
          obtain ⟨_, rfl⟩ := hn
          exact Or.inr (Or.inr ⟨List.mem_cons_self _ _, h1, h2⟩)
    | move k =>
      cases stage with
      | source =>
        rw [attempts_cons_move_source, pre_ret] at hn
        by_cases hz : moved k maxLen w.src.length = 0
        · rw [if_pos hz] at hn
          simp [Run.done] at hn
        · rw [if_neg hz, pre_ret] at hn
          cases hr : env.ready g with
          | some serr =>
            simp [hr, Run.done] at hn
            exact Or.inl ⟨g, by rw [hr, hn.2]⟩
          | none =>
            simp only [hr] at hn
            exact lift (ih _ (g + 1) _ _ n e hn)
      | drain =>
        rw [attempts_cons_move_drain, pre_ret] at hn
        cases hr : env.ready g with
        | some serr =>
          simp [hr, Run.done] at hn
          exact Or.inl ⟨g, by rw [hr, hn.2]⟩
        | none =>
          simp only [hr] at hn
          exact lift (ih _ (g + 1) _ _ n e hn)

theorem view_pre_congr (os : List Obs) {r1 r2 : Run} (h : r1.view = r2.view) :
    (Run.pre os r1).view = (Run.pre os r2).view := by
  simp only [Run.view, Run.pre, Prod.mk.injEq, List.filter_append] at h ⊢
  exact ⟨h.1, h.2.1, by rw [h.2.2]⟩

theorem view_pre_splice (rfd wfd : Fd) (len written rem n : Int) (err : Option Err) (r : Run) :
    (Run.pre [Obs.splice rfd wfd len written rem n err] r).view = r.view := by
  simp [Run.view, Run.pre]

theorem view_deferred_congr {r1 r2 : Run} (h : r1.view = r2.view) :
    r1.deferred.view = r2.deferred.view := by
  simp only [Run.view, Prod.mk.injEq] at h
  obtain ⟨h1, h2, h3⟩ := h
  unfold Run.deferred
  rw [h1]
  split
  · simp [Run.view, h1, h2, h3]
  · simp [Run.view, h1, h2, h3]

theorem attempts_skip_eintr (env : Env) (progress : Option ProgressHandler) (maxLen : Int)
    (stage : Stage) (g : Nat) (st : Loop) (w : World) (k : Nat) (post : List Attempt) :
    (attempts env progress maxLen stage g st w
        (List.replicate k (Attempt.fail EINTR) ++ post)).view =
      (attempts env progress maxLen stage g st w post).view := by
  induction k with
  | zero => simp
  | succ k ih =>
    rw [List.replicate_succ, List.cons_append, attempts_cons_fail, if_pos rfl, view_pre_splice]
    exact ih

/-- Interrupted splice attempts put anywhere in a script change nothing of
what the caller sees. -/
theorem attempts_insert_eintr (env : Env) (progress : Option ProgressHandler) (maxLen : Int)
    (k : Nat) (post : List Attempt) (front : List Attempt) :
    ∀ (stage : Stage) (g : Nat) (st : Loop) (w : World),
      (attempts env progress maxLen stage g st w
          (front ++ (List.replicate k (Attempt.fail EINTR) ++ post))).view =
        (attempts env progress maxLen stage g st w (front ++ post)).view := by
  induction front with
  | nil =>
    intro stage g st w
    exact attempts_skip_eintr env progress maxLen stage g st w k post
  | cons a rest ih =>
    intro stage g st w
    cases a with
    | guardFail e =>
      simp [attempts_cons_guardFail]
    | fail e =>
      rw [List.cons_append, List.cons_append, attempts_cons_fail, attempts_cons_fail]
      apply view_pre_congr
      by_cases h1 : e = EINTR
      · rw [if_pos h1, if_pos h1]
        exact ih stage g st w
      · rw [if_neg h1, if_neg h1]
        by_cases h2 : e = EAGAIN
        · rw [if_pos h2, if_pos h2]
          apply view_pre_congr
          cases hr : env.ready g with
          | some serr => rfl
          | none => exact ih stage (g + 1) st w
        · rw [if_neg h2, if_neg h2]
    | move j =>
      cases stage with
      | source =>
        rw [List.cons_append, List.cons_append, attempts_cons_move_source,
          attempts_cons_move_source]
        apply view_pre_congr
        by_cases hz : moved j maxLen w.src.length = 0
        · rw [if_pos hz, if_pos hz]
        · rw [if_neg hz, if_neg hz]
          apply view_pre_congr
          cases hr : env.ready g with
          | some serr => rfl
          | none => exact ih _ (g + 1) _ _
      | drain =>
        rw [List.cons_append, List.cons_append, attempts_cons_move_drain,
          attempts_cons_move_drain]
        apply view_pre_congr
        cases hr : env.ready g with
        | some serr => rfl
        | none => exact ih _ (g + 1) _ _

/-- While only interrupted and not-ready attempts come and every readiness
wait met succeeds, the source stage goes on without a progress call and
without a move out of the pipe; a move of zero bytes then ends the call. -/
theorem attempts_eof (env : Env) (progress : Option ProgressHandler) (maxLen : Int)
    (k : Nat) (post : List Attempt) (front : List Attempt) :
    ∀ (g : Nat) (st : Loop) (w : World),
      (∀ a ∈ front, a.transient = true) →
      (∀ i, i < front.count (Attempt.fail EAGAIN) → env.ready (g + i) = none) →
      moved k maxLen w.src.length = 0 →
      (attempts env progress maxLen .source g st w (front ++ Attempt.move k :: post)).ret =
          some (st.written, none) ∧
        progressArgs
          (attempts env progress maxLen .source g st w (front ++ Attempt.move k :: post)).log
          = [] ∧
        flushedCounts
          (attempts env progress maxLen .source g st w (front ++ Attempt.move k :: post)).log
          = [] ∧
        ∀ len written rem n err, Obs.splice .pr .dst len written rem n err ∉
          (attempts env progress maxLen .source g st w (front ++ Attempt.move k :: post)).log := by
  induction front with
  | nil =>
    intro g st w _ _ hz
    rw [List.nil_append, attempts_cons_move_source, if_pos hz]
    simp [Run.pre, Run.done, progressArgs, flushedCounts]
  | cons a rest ih =>
    intro g st w ht hr hz
    have htr : ∀ a ∈ rest, a.transient = true := fun a ha => ht a (List.mem_cons_of_mem _ ha)
    have hta := ht a (List.mem_cons_self _ _)
    cases a with
    | guardFail e => simp [Attempt.transient] at hta
    | move j => simp [Attempt.transient] at hta
    | fail e =>
      rw [List.cons_append, attempts_cons_fail]
      by_cases h1 : e = EINTR
      · rw [if_pos h1]
        have hne : ¬ (Attempt.fail EAGAIN = Attempt.fail e) := by
          rw [h1]
          decide
        have := ih g st w htr (fun i hi => hr i (by
          rw [List.count_cons]
          omega)) hz
        obtain ⟨a1, a2, a3, a4⟩ := this
        refine ⟨by rw [pre_ret, a1], ?_, ?_, ?_⟩
        · rw [pre_log, progressArgs_append, a2]
          simp [progressArgs]
        · rw [pre_log, flushedCounts_append, a3]
          simp [flushedCounts, Stage.rfd, Stage.wfd]
        · intro len written rem n err hmem
          rw [mem_pre_log] at hmem
          rcases hmem with hmem | hmem
          · simp [Stage.rfd] at hmem
          · exact a4 _ _ _ _ _ hmem
      · have h2 : e = EAGAIN := by simpa [Attempt.transient, h1] using hta
        rw [if_neg h1, if_pos h2]
        have hg : env.ready g = none := by
          have := hr 0 (by
            rw [h2, List.count_cons_self]
            omega)
          simpa using this
        simp only [hg]
        have := ih (g + 1) st w htr (fun i hi => by
          have := hr (i + 1) (by
            rw [h2, List.count_cons_self]
            omega)
          rw [← this]
          congr 1
          omega) hz
        obtain ⟨a1, a2, a3, a4⟩ := this
        refine ⟨by rw [pre_ret, pre_ret, a1], ?_, ?_, ?_⟩
        · rw [pre_log, pre_log, progressArgs_append, progressArgs_append, a2]
          simp [progressArgs]
        · rw [pre_log, pre_log, flushedCounts_append, flushedCounts_append, a3]
          simp [flushedCounts, Stage.rfd, Stage.wfd]
        · intro len written rem n err hmem
          rw [mem_pre_log, mem_pre_log] at hmem
          rcases hmem with hmem | hmem | hmem
          · simp [Stage.rfd] at hmem
          · simp at hmem
          · exact a4 _ _ _ _ _ hmem

/-! ## The call as a whole -/

theorem FcntlInt_ok (env : Env) (cmd arg : Int) (h : (FcntlInt env cmd arg).2 = none) :
    ∃ v : Nat, FcntlInt env cmd arg = ((v : Int), none) := by
  unfold FcntlInt at h ⊢
  split_ifs at h ⊢ with h1 h2
  · cases hs : env.setPipeSz arg with
    | ok v => exact ⟨v, rfl⟩
    | error e => simp [hs] at h
  · cases hs : env.getPipeSz with
    | ok v => exact ⟨v, rfl⟩
    | error e => simp [hs] at h

/-- The three ways `copyWithOpts` goes: the pipe is not created; the pipe is
created and a later set-up step fails; the loop is entered. -/
theorem copyWithOpts_cases (env : Env) (opts : Options) (src dst : List Byte)
    (script : List Attempt) :
    (∃ e, env.pipes = some e ∧
        copyWithOpts env opts src dst script =
          Run.done 0 (some (.wrapped .pipes e)) { src := src, pipe := [], dst := dst }) ∨
    (∃ s e os, env.pipes = none ∧ (∀ cap, ¬ setupOk env opts cap) ∧
        (os = [] ∨ os = [Obs.fcntl (pipeCmd opts) opts.bufSize]) ∧
        copyWithOpts env opts src dst script =
          Run.deferred (Run.pre os
            (Run.done 0 (some (.wrapped s e)) { src := src, pipe := [], dst := dst }))) ∨
    (∃ cap : Nat, setupOk env opts cap ∧
        copyWithOpts env opts src dst script =
          Run.deferred (Run.pre [Obs.fcntl (pipeCmd opts) opts.bufSize]
            (pump env opts.progress cap { src := src, pipe := [], dst := dst } script))) := by
  unfold copyWithOpts
  cases h1 : env.pipes with
  | some e => exact Or.inl ⟨e, rfl, rfl⟩
  | none =>
    right
    cases h2 : env.srcConn with
    | some e =>
      exact Or.inl ⟨_, e, [], rfl, fun cap hc => by simp [setupOk, h2] at hc, Or.inl rfl, rfl⟩
    | none =>
    cases h3 : env.dstConn with
    | some e =>
      exact Or.inl ⟨_, e, [], rfl, fun cap hc => by simp [setupOk, h3] at hc, Or.inl rfl, rfl⟩
    | none =>
    cases h4 : env.prConn with
    | some e =>
      exact Or.inl ⟨_, e, [], rfl, fun cap hc => by simp [setupOk, h4] at hc, Or.inl rfl, rfl⟩
    | none =>
    cases h5 : env.pwConn with
    | some e =>
      exact Or.inl ⟨_, e, [], rfl, fun cap hc => by simp [setupOk, h5] at hc, Or.inl rfl, rfl⟩
    | none =>
    cases h6 : env.control with
    | some e =>
      exact Or.inl ⟨_, e, [], rfl, fun cap hc => by simp [setupOk, h6] at hc, Or.inl rfl, rfl⟩
    | none =>
    cases h7 : (FcntlInt env (pipeCmd opts) opts.bufSize).2 with
    | some e =>
      refine Or.inl ⟨.pipeSize, e, [Obs.fcntl (pipeCmd opts) opts.bufSize], rfl, fun cap hc => ?_,
        Or.inr rfl, ?_⟩
      · have := hc.2.2.2.2.2.2
        rw [this] at h7
        simp at h7
      · simp only [h7]
    | none =>
      obtain ⟨v, hv⟩ := FcntlInt_ok env _ _ h7
      refine Or.inr ⟨v, ⟨h1, h2, h3, h4, h5, h6, hv⟩, ?_⟩
      simp only [h7, hv]

theorem inv_init (cap : Nat) (src dst : List Byte) :
    Inv (cap : Int) .source { written := 0, rem := 0 } { src := src, pipe := [], dst := dst } := by
  refine ⟨?_, ?_, ?_⟩
  · simp [Loop.stage]
  · simp
  · simp

theorem deferred_ret (r : Run) : r.deferred.ret = r.ret := by
  unfold Run.deferred
  split <;> rfl

theorem deferred_world (r : Run) : r.deferred.world = r.world := by
  unfold Run.deferred
  split <;> rfl

theorem deferred_log (r : Run) :
    r.deferred.log = r.log ++ (if r.ret.isSome then [Obs.close Fd.pw, Obs.close Fd.pr] else []) := by
  unfold Run.deferred
  split <;> simp

theorem flushedCounts_closes :
    flushedCounts [Obs.close Fd.pw, Obs.close Fd.pr] = [] := by
  simp [flushedCounts]

theorem progressArgs_closes :
    progressArgs [Obs.close Fd.pw, Obs.close Fd.pr] = [] := by
  simp [progressArgs]

theorem flushedCounts_deferred (r : Run) : flushedCounts r.deferred.log = flushedCounts r.log := by
  rw [deferred_log, flushedCounts_append]
  split <;> simp [flushedCounts]

theorem progressArgs_deferred (r : Run) : progressArgs r.deferred.log = progressArgs r.log := by
  rw [deferred_log, progressArgs_append]
  split <;> simp [progressArgs]

theorem flushedCounts_pre_fcntl (cmd arg : Int) (r : Run) :
    flushedCounts (Run.pre [Obs.fcntl cmd arg] r).log = flushedCounts r.log := by
  rw [pre_log, flushedCounts_append]
  simp [flushedCounts]

theorem progressArgs_pre_fcntl (cmd arg : Int) (r : Run) :
    progressArgs (Run.pre [Obs.fcntl cmd arg] r).log = progressArgs r.log := by
  rw [pre_log, progressArgs_append]
  simp [progressArgs]

theorem take_of_append_eq {α : Type} (a b d s : List α) (m : Nat) (h : a ++ b = d ++ s)
    (hl : a.length = d.length + m) : a = d ++ s.take m := by
  have h1 : a = (a ++ b).take a.length := by simp
  rw [h1, h, hl, List.take_append]

theorem flushedCounts_nonneg (env : Env) (progress : Option ProgressHandler) (maxLen : Int)
    (script : List Attempt) (stage : Stage) (g : Nat) (st : Loop) (w : World)
    (hinv : Inv maxLen stage st w) :
    0 ≤ (flushedCounts (attempts env progress maxLen stage g st w script).log).sum := by
  apply List.sum_nonneg
  intro x hx
  unfold flushedCounts at hx
  rw [List.mem_filterMap] at hx
  obtain ⟨o, ho, hox⟩ := hx
  have hin := attempts_log env progress maxLen script stage g st w hinv o ho
  cases o with
  | splice rfd wfd len written rem n err =>
    cases err with
    | some e => cases rfd <;> cases wfd <;> simp at hox
    | none =>
      have hn := (hin.2.2.2.2 rfl).1
      cases rfd <;> cases wfd <;> simp at hox
      omega
  | fcntl _ _ => simp at hox
  | wait _ _ => simp at hox
  | check _ _ => simp at hox
  | progress _ _ => simp at hox
  | close _ => simp at hox

/-- Every observation of a call is the capacity operation, one of the two
deferred closes, or an observation of the loop entered after a successful
set-up. -/
theorem copyWithOpts_log_mem (env : Env) (opts : Options) (src dst : List Byte)
    (script : List Attempt) (o : Obs) (ho : o ∈ (copyWithOpts env opts src dst script).log) :
    o = Obs.fcntl (pipeCmd opts) opts.bufSize ∨ o = Obs.close Fd.pw ∨ o = Obs.close Fd.pr ∨
      ∃ cap : Nat, setupOk env opts cap ∧ env.ready 0 = none ∧
        o ∈ (attempts env opts.progress cap .source 1 { written := 0, rem := 0 }
              { src := src, pipe := [], dst := dst } script).log := by
  rcases copyWithOpts_cases env opts src dst script with
    ⟨e, _, heq⟩ | ⟨s, e, obs, _, _, hobs, heq⟩ | ⟨cap, hok, heq⟩
  · rw [heq] at ho
    simp [Run.done] at ho
  · rw [heq, deferred_log, pre_log] at ho
    simp only [List.mem_append] at ho
    rcases ho with (ho | ho) | ho
    · rcases hobs with rfl | rfl
      · simp at ho
      · simp at ho
        exact Or.inl ho
    · simp [Run.done] at ho
    · split at ho
      · simp at ho
        rcases ho with ho | ho
        · exact Or.inr (Or.inl ho)
        · exact Or.inr (Or.inr (Or.inl ho))
      · simp at ho
  · rw [heq, deferred_log, pre_log] at ho
    simp only [List.mem_append] at ho
    rcases ho with (ho | ho) | ho
    · simp at ho
      exact Or.inl ho
    · unfold pump at ho
      cases hr : env.ready 0 with
      | some e => simp [hr, Run.done] at ho
      | none =>
        simp only [hr] at ho
        exact Or.inr (Or.inr (Or.inr ⟨cap, hok, rfl, ho⟩))
    · split at ho
      · simp at ho
        rcases ho with ho | ho
        · exact Or.inr (Or.inl ho)
        · exact Or.inr (Or.inr (Or.inl ho))
      · simp at ho

/-- Every observation of a call made inside the loop has the shape `Obs.inLoop`
for the capacity reported at set-up. -/
theorem copyWithOpts_log_inLoop (env : Env) (opts : Options) (src dst : List Byte)
    (script : List Attempt) (o : Obs) (ho : o ∈ (copyWithOpts env opts src dst script).log) :
    o = Obs.fcntl (pipeCmd opts) opts.bufSize ∨ o = Obs.close Fd.pw ∨ o = Obs.close Fd.pr ∨
      ∃ cap : Nat, setupOk env opts cap ∧ Obs.inLoop opts.progress cap o := by
  rcases copyWithOpts_log_mem env opts src dst script o ho with h | h | h | ⟨cap, hok, _, hin⟩
  · exact Or.inl h
  · exact Or.inr (Or.inl h)
  · exact Or.inr (Or.inr (Or.inl h))
  · exact Or.inr (Or.inr (Or.inr ⟨cap, hok,
      attempts_log env opts.progress cap script .source 1 _ _ (inv_init cap src dst) o hin⟩))

/-- Where the error returned by a call comes from. -/
theorem copyWithOpts_err_origin (env : Env) (opts : Options) (src dst : List Byte)
    (script : List Attempt) (n : Int) (e : Err)
    (hret : (copyWithOpts env opts src dst script).ret = some (n, some e)) :
    (∃ s c, e = .wrapped s c) ∨ (∃ i, env.ready i = some e) ∨ Attempt.guardFail e ∈ script ∨
      (Attempt.fail e ∈ script ∧ e ≠ EINTR ∧ e ≠ EAGAIN) := by
  rcases copyWithOpts_cases env opts src dst script with
    ⟨e1, _, heq⟩ | ⟨s, e1, obs, _, _, hobs, heq⟩ | ⟨cap, hok, heq⟩
  · rw [heq] at hret
    simp [Run.done] at hret
    exact Or.inl ⟨_, _, hret.2.symm⟩
  · rw [heq, deferred_ret, pre_ret] at hret
    simp [Run.done] at hret
    exact Or.inl ⟨_, _, hret.2.symm⟩
  · rw [heq, deferred_ret, pre_ret] at hret
    unfold pump at hret
    cases hr : env.ready 0 with
    | some e1 =>
      simp [hr, Run.done] at hret
      exact Or.inr (Or.inl ⟨0, by rw [hr, hret.2]⟩)
    | none =>
      simp only [hr] at hret
      exact Or.inr (attempts_err_origin env opts.progress cap script _ _ _ _ n e hret)

/-- Two scripts on which the loop looks the same to the caller give calls
that look the same to the caller. -/
theorem copyWithOpts_view_congr (env : Env) (opts : Options) (src dst : List Byte)
    (s1 s2 : List Attempt)
    (h : ∀ (maxLen : Int) (g : Nat) (st : Loop) (w : World),
      (attempts env opts.progress maxLen .source g st w s1).view =
        (attempts env opts.progress maxLen .source g st w s2).view) :
    (copyWithOpts env opts src dst s1).view = (copyWithOpts env opts src dst s2).view := by
  rcases copyWithOpts_cases env opts src dst s1 with
    ⟨e1, hp, heq⟩ | ⟨s, e1, obs, hp, hno, hobs, heq⟩ | ⟨cap, hok, heq⟩
  · rcases copyWithOpts_cases env opts src dst s2 with
      ⟨e2, hp2, heq2⟩ | ⟨_, _, _, hp2, _, _, _⟩ | ⟨_, hok2, _⟩
    · rw [hp] at hp2
      cases hp2
      rw [heq, heq2]
    · rw [hp] at hp2
      cases hp2
    · rw [hok2.1] at hp
      cases hp
  · have : copyWithOpts env opts src dst s2 = copyWithOpts env opts src dst s1 := by
      unfold copyWithOpts
      simp only [hp]
      cases h2 : env.srcConn with
      | some e => rfl
      | none =>
      cases h3 : env.dstConn with
      | some e => rfl
      | none =>
      cases h4 : env.prConn with
      | some e => rfl
      | none =>
      cases h5 : env.pwConn with
      | some e => rfl
      | none =>
      cases h6 : env.control with
      | some e => rfl
      | none =>
      cases h7 : (FcntlInt env (pipeCmd opts) opts.bufSize).2 with
      | some e => simp only [h7]
      | none =>
        obtain ⟨v, hv⟩ := FcntlInt_ok env _ _ h7
        exact absurd ⟨hp, h2, h3, h4, h5, h6, hv⟩ (hno v)
    rw [this]
  · rcases copyWithOpts_cases env opts src dst s2 with
      ⟨e2, hp2, _⟩ | ⟨_, _, _, _, hno, _, _⟩ | ⟨cap2, hok2, heq2⟩
    · rw [hok.1] at hp2
      cases hp2
    · exact absurd hok (hno cap)
    · have hc : cap2 = cap := by
        have h1 := hok.2.2.2.2.2.2
        have h2 := hok2.2.2.2.2.2.2
        rw [h1] at h2
        simpa using h2.symm
      subst hc
      rw [heq, heq2]
      apply view_deferred_congr
      apply view_pre_congr
      unfold pump
      cases env.ready 0 with
      | some e => rfl
      | none => exact h _ _ _ _

theorem closes_attempts (env : Env) (progress : Option ProgressHandler) (cap : Nat)
    (src dst : List Byte) (script : List Attempt) (g : Nat) :
    closes (attempts env progress cap .source g { written := 0, rem := 0 }
      { src := src, pipe := [], dst := dst } script).log = [] := by
  unfold closes
  rw [List.filterMap_eq_nil_iff]
  intro o ho
  have hin := attempts_log env progress cap script .source g _ _ (inv_init cap src dst) o ho
  cases o with
  | close fd => exact absurd hin (by simp [Obs.inLoop])
  | splice _ _ _ _ _ _ _ => rfl
  | fcntl _ _ => rfl
  | wait _ _ => rfl
  | check _ _ => rfl
  | progress _ _ => rfl

theorem resolve_append (os : List CopyOption) (f : CopyOption) :
    resolve (os ++ [f]) = f (resolve os) := by
  simp [resolve, List.foldl_append]

theorem copyWithOpts_nonpositive (env : Env) (opts : Options) (src dst : List Byte)
    (script : List Attempt) (h : opts.bufSize ≤ 0) :
    (copyWithOpts env (WithBufSize 0 opts) src dst script).ret =
        (copyWithOpts env opts src dst script).ret ∧
      (copyWithOpts env (WithBufSize 0 opts) src dst script).world =
        (copyWithOpts env opts src dst script).world ∧
      (copyWithOpts env (WithBufSize 0 opts) src dst script).log.filter (fun o => !o.isFcntl) =
        (copyWithOpts env opts src dst script).log.filter (fun o => !o.isFcntl) := by
  have hc : pipeCmd opts = F_GETPIPE_SZ := by
    unfold pipeCmd
    rw [if_neg (by omega)]
  have hc0 : pipeCmd (WithBufSize 0 opts) = F_GETPIPE_SZ := by
    simp [pipeCmd, WithBufSize]
  have hf : FcntlInt env F_GETPIPE_SZ (WithBufSize 0 opts).bufSize =
      FcntlInt env F_GETPIPE_SZ opts.bufSize := by
    simp [FcntlInt, F_GETPIPE_SZ, F_SETPIPE_SZ]
  have hp : (WithBufSize 0 opts).progress = opts.progress := rfl
  unfold copyWithOpts
  simp only [hc, hc0, hf, hp]
  cases env.pipes with
  | some e => simp
  | none =>
  simp only [deferred_ret, deferred_world, deferred_log, List.filter_append]
  cases env.srcConn with
  | some e => simp
  | none =>
  cases env.dstConn with
  | some e => simp
  | none =>
  cases env.prConn with
  | some e => simp
  | none =>
  cases env.pwConn with
  | some e => simp
  | none =>
  cases env.control with
  | some e => simp
  | none =>
  simp [pre_ret, pre_world, pre_log, Obs.isFcntl]

theorem fcntls_pump (env : Env) (progress : Option ProgressHandler) (cap : Nat)
    (src dst : List Byte) (script : List Attempt) :
    fcntls (pump env progress cap { src := src, pipe := [], dst := dst } script).log = [] := by
  unfold fcntls
  rw [List.filterMap_eq_nil_iff]
  intro o ho
  unfold pump at ho
  cases hr : env.ready 0 with
  | some e => simp [hr, Run.done] at ho
  | none =>
    simp only [hr] at ho
    have hin := attempts_log env _ cap script .source 1 _ _ (inv_init cap src dst) o ho
    cases o with
    | fcntl _ _ => exact absurd hin (by simp [Obs.inLoop])
    | splice _ _ _ _ _ _ _ => rfl
    | wait _ _ => rfl
    | check _ _ => rfl
    | progress _ _ => rfl
    | close _ => rfl

theorem foldl_progress_bufSize (hs : List (Option ProgressHandler)) (o : Options) :
    (List.foldl (fun o opt => opt o) o (hs.map WithProgressHandler)).bufSize = o.bufSize := by
  induction hs generalizing o with
  | nil => rfl
  | cons h rest ih =>
    rw [List.map_cons, List.foldl_cons, ih]
    rfl

/-! ## The claims -/

/-- C1. Let the source hold the finite byte sequence `S` before end-of-stream.
Take any run in which the set-up succeeds with a positive pipe capacity, the
readiness guards of `src` and `dst` never fail, and the splice attempts of
`script` are each interrupted (`EINTR`), not ready (`EAGAIN`) or able to move
at least one byte; `script` holds at least `2 * |S| + 1` successful attempts
(enough for every byte to go in and out of the pipe and for the final
end-of-stream read) and whatever follows it (`more`) is arbitrary.  Then
`Copy` returns `(|S|, nil)`, the destination has received exactly `S`
appended in order, and nothing is left in the source or the pipe. -/
theorem Copy_delivers_source (env : Env) (os : List CopyOption) (S dst : List Byte)
    (cap : Nat) (script more : List Attempt)
    (hsetup : setupOk env (resolve os) cap) (hcap : 0 < cap)
    (hready : ∀ i, env.ready i = none)
    (hbenign : ∀ a ∈ script, a.benign = true)
    (hmoves : 2 * S.length + 1 ≤ script.countP Attempt.isMove) :
    (Copy env os S dst (script ++ more)).ret = some ((S.length : Int), none) ∧
      (Copy env os S dst (script ++ more)).world = { src := [], pipe := [], dst := dst ++ S } := by
  unfold Copy
  rcases copyWithOpts_cases env (resolve os) S dst (script ++ more) with
    ⟨e, he, _⟩ | ⟨_, _, _, _, hno, _⟩ | ⟨cap1, hs1, heq⟩
  · rw [hsetup.1] at he
    cases he
  · exact absurd hsetup (hno cap)
  · have hc : cap1 = cap := by
      have h1 := hs1.2.2.2.2.2.2
      have h2 := hsetup.2.2.2.2.2.2
      rw [h1] at h2
      simpa using h2
    subst hc
    have hmax : (0 : Int) < (cap1 : Int) := by exact_mod_cast hcap
    have key := attempts_total env (resolve os).progress cap1 hmax hready script more
      .source 1 { written := 0, rem := 0 } { src := S, pipe := [], dst := dst }
      (inv_init cap1 S dst) hbenign (by simpa using hmoves)
    rw [heq]
    unfold pump
    simp only [hready]
    unfold Run.deferred
    simp only [pre_ret, key.1, Option.isSome_some, if_true]
    simp [Run.pre, key.2]

/-- C1, at the ten bytes "ABCDEFGHIJ" with capacity hint 4096: the call
returns `(10, nil)` and the destination holds the ten bytes. -/
theorem Copy_delivers_source_witness :
    (Copy (quietEnv 4096) [WithBufSize 4096] tenBytes [] (busyScript ++ [])).ret =
        some ((tenBytes.length : Int), none) ∧
      (Copy (quietEnv 4096) [WithBufSize 4096] tenBytes [] (busyScript ++ [])).world =
        { src := [], pipe := [], dst := [] ++ tenBytes } :=
  Copy_delivers_source (quietEnv 4096) [WithBufSize 4096] tenBytes [] 4096 busyScript []
    (by decide) (by decide) (fun _ => rfl) (by decide) (by decide)

/-- C2. In every run of `Copy` that returns a nil error with a progress
handler configured, the arguments of the handler calls add up to the
returned byte count. -/
theorem Copy_progress_sum (env : Env) (os : List CopyOption) (src dst : List Byte)
    (script : List Attempt) (h : ProgressHandler) (n : Int)
    (hcfg : (resolve os).progress = some h)
    (hret : (Copy env os src dst script).ret = some (n, none)) :
    (progressArgs (Copy env os src dst script).log).sum = n := by
  unfold Copy at hret ⊢
  rcases copyWithOpts_cases env (resolve os) src dst script with
    ⟨e, _, heq⟩ | ⟨s, e, obs, _, _, _, heq⟩ | ⟨cap, _, heq⟩
  · rw [heq] at hret
    simp [Run.done] at hret
  · rw [heq, deferred_ret, pre_ret] at hret
    simp [Run.done] at hret
  · rw [heq, deferred_ret, pre_ret] at hret
    rw [heq, progressArgs_deferred, progressArgs_pre_fcntl]
    unfold pump at hret ⊢
    cases hr : env.ready 0 with
    | some e => simp [hr, Run.done] at hret
    | none =>
      simp only [hr, hcfg] at hret ⊢
      have := attempts_progress env h cap script .source 1 { written := 0, rem := 0 }
        { src := src, pipe := [], dst := dst } (inv_init cap src dst) n hret
      simpa using this.symm

/-- C2, on a run that takes ten bytes from the source in chunks of four,
four and two and announces each chunk. -/
theorem Copy_progress_sum_witness :
    (progressArgs (Copy (quietEnv 4096) [WithProgressHandler (some 7)] tenBytes []
      [.move 4, .move 3, .move 1, .move 4, .fail EINTR, .move 4, .move 4, .move 4, .move 1]).log).sum
      = 10 :=
  Copy_progress_sum (quietEnv 4096) [WithProgressHandler (some 7)] tenBytes []
    [.move 4, .move 3, .move 1, .move 4, .fail EINTR, .move 4, .move 4, .move 4, .move 1] 7 10
    (by decide) (by decide)

/-- C3. On every return path of `Copy` the returned byte count is the sum of
the byte counts of the pipe-to-destination moves that succeeded before the
return; it is not negative and the destination has received exactly that
many bytes, the first ones of the source, whatever error is returned and
whatever is still in the pipe.  When the pipe creation, a raw-descriptor
acquisition or the capacity query or set fails, `Copy` returns 0 with an
error. -/
theorem Copy_count_is_flushed (env : Env) (os : List CopyOption) (src dst : List Byte)
    (script : List Attempt) :
    (∀ n e, (Copy env os src dst script).ret = some (n, e) →
        n = (flushedCounts (Copy env os src dst script).log).sum ∧ 0 ≤ n ∧
          (Copy env os src dst script).world.dst = dst ++ src.take n.toNat) ∧
      ((env.pipes ≠ none ∨ env.srcConn ≠ none ∨ env.dstConn ≠ none ∨ env.prConn ≠ none ∨
          env.pwConn ≠ none ∨ env.control ≠ none ∨
          (FcntlInt env (pipeCmd (resolve os)) (resolve os).bufSize).2 ≠ none) →
        ∃ s c, (Copy env os src dst script).ret = some (0, some (.wrapped s c))) := by
  unfold Copy
  rcases copyWithOpts_cases env (resolve os) src dst script with
    ⟨e, _, heq⟩ | ⟨s, e, obs, _, _, hobs, heq⟩ | ⟨cap, hok, heq⟩
  · rw [heq]
    refine ⟨?_, fun _ => ⟨_, _, rfl⟩⟩
    intro n e1 hret
    simp [Run.done] at hret
    simp [Run.done, flushedCounts, ← hret.1]
  · rw [heq]
    refine ⟨?_, fun _ => ⟨s, e, by rw [deferred_ret, pre_ret]; rfl⟩⟩
    intro n e1 hret
    rw [deferred_ret, pre_ret] at hret
    simp [Run.done] at hret
    rw [flushedCounts_deferred, deferred_world, pre_world]
    rcases hobs with rfl | rfl <;> simp [Run.done, Run.pre, flushedCounts, ← hret.1]
  · rw [heq]
    constructor
    · intro n e1 hret
      rw [deferred_ret, pre_ret] at hret
      rw [flushedCounts_deferred, flushedCounts_pre_fcntl, deferred_world, pre_world]
      unfold pump at hret ⊢
      cases hr : env.ready 0 with
      | some e =>
        simp [hr, Run.done] at hret
        simp [Run.done, flushedCounts, ← hret.1]
      | none =>
        simp only [hr] at hret ⊢
        obtain ⟨hcons, hacc⟩ := attempts_account env (resolve os).progress cap script .source 1
          { written := 0, rem := 0 } { src := src, pipe := [], dst := dst }
        obtain ⟨h1, h2⟩ := hacc n e1 hret
        simp only [zero_add] at h1
        rw [← h1] at h2
        have hn : 0 ≤ n := by
          rw [h1]
          exact flushedCounts_nonneg env (resolve os).progress cap script .source 1 _ _
            (inv_init cap src dst)
        refine ⟨h1, hn, ?_⟩
        have hcons2 : (attempts env (resolve os).progress cap .source 1
              { written := 0, rem := 0 } { src := src, pipe := [], dst := dst } script).world.dst ++
            ((attempts env (resolve os).progress cap .source 1
              { written := 0, rem := 0 } { src := src, pipe := [], dst := dst } script).world.pipe ++
             (attempts env (resolve os).progress cap .source 1
              { written := 0, rem := 0 } { src := src, pipe := [], dst := dst } script).world.src) =
            dst ++ src := by
          simpa using hcons
        apply take_of_append_eq _ _ _ _ _ hcons2
        simp only at h2
        omega
    · intro hfail
      obtain ⟨a1, a2, a3, a4, a5, a6, a7⟩ := hok
      rw [a7] at hfail
      simp [a1, a2, a3, a4, a5, a6] at hfail

/-- C3, on a run whose destination breaks after three bytes (`Copy` returns
3 with the error and three bytes reached the destination), and on a call
whose pipe cannot be created. -/
theorem Copy_count_is_flushed_witness :
    ((3 : Int) = (flushedCounts (Copy (quietEnv 4096) [] tenBytes []
          [.move 4, .move 3, .fail (.errno 32)]).log).sum ∧ (0 : Int) ≤ 3 ∧
        (Copy (quietEnv 4096) [] tenBytes [] [.move 4, .move 3, .fail (.errno 32)]).world.dst =
          [] ++ tenBytes.take (3 : Int).toNat) ∧
      ∃ s c, (Copy noPipeEnv [] tenBytes [] shortScript).ret = some (0, some (.wrapped s c)) :=
  ⟨(Copy_count_is_flushed (quietEnv 4096) [] tenBytes []
      [.move 4, .move 3, .fail (.errno 32)]).1 3 (some (.errno 32)) (by decide),
   (Copy_count_is_flushed noPipeEnv [] tenBytes [] shortScript).2 (Or.inl (by decide))⟩

/-- C4. A splice move that fails with `EINTR` is retried at once: in the
source stage and in the drain stage alike, the attempt leaves one
observation (the failed call, with the descriptors and the length `maxLen`
of the stage) and the loop goes on in the same stage with `written`, `rem`,
the payload and the readiness counter unchanged, without a progress call.
Hence putting any number of `EINTR` results at any place of a script leaves
what `Copy` returns, the payload on both sides and the progress calls
unchanged.  And `EINTR` is not the error `Copy` returns, unless a readiness
guard or a pipe-end guard itself (not a splice move) produced that value. -/
theorem Copy_eintr_retried (env : Env) (os : List CopyOption) (src dst : List Byte)
    (progress : Option ProgressHandler) (maxLen : Int) (g : Nat) (st : Loop) (w : World)
    (front post script rest : List Attempt) (k : Nat) (n : Int) :
    attempts env progress maxLen .source g st w (.fail EINTR :: rest) =
        Run.pre [Obs.splice .src .pw maxLen st.written st.rem (-1) (some EINTR)]
          (attempts env progress maxLen .source g st w rest) ∧
      attempts env progress maxLen .drain g st w (.fail EINTR :: rest) =
        Run.pre [Obs.splice .pr .dst maxLen st.written st.rem (-1) (some EINTR)]
          (attempts env progress maxLen .drain g st w rest) ∧
      (Copy env os src dst (front ++ (List.replicate k (.fail EINTR) ++ post))).view =
        (Copy env os src dst (front ++ post)).view ∧
      ((∀ i, env.ready i ≠ some EINTR) → Attempt.guardFail EINTR ∉ script →
        (Copy env os src dst script).ret ≠ some (n, some EINTR)) := by
  refine ⟨?_, ?_, ?_, ?_⟩
  · rw [attempts_cons_fail, if_pos rfl]
    rfl
  · rw [attempts_cons_fail, if_pos rfl]
    rfl
  · unfold Copy
    apply copyWithOpts_view_congr
    intro maxLen g st w
    exact attempts_insert_eintr env _ maxLen k post front .source g st w
  · intro hready hguard hret
    unfold Copy at hret
    rcases copyWithOpts_err_origin env _ src dst script n EINTR hret with
      ⟨s, c, h⟩ | ⟨i, h⟩ | h | ⟨_, h, _⟩
    · simp [EINTR] at h
    · exact hready i h
    · exact hguard h
    · exact h rfl

/-- C4, on a run whose destination stage is interrupted twice. -/
theorem Copy_eintr_retried_witness :
    (Copy (quietEnv 4096) [] tenBytes [] [.move 4, .fail EINTR, .fail EINTR, .move 4]).ret ≠
      some (4, some EINTR) :=
  (Copy_eintr_retried (quietEnv 4096) [] tenBytes [] none 4096 0 { written := 0, rem := 0 }
    { src := tenBytes, pipe := [], dst := [] } [] []
    [.move 4, .fail EINTR, .fail EINTR, .move 4] [] 0 4).2.2.2
    (by simp [quietEnv]) (by decide)

/-- C5. A splice move that fails with `EAGAIN` makes the callback report
not-done: in the source stage to the read-readiness guard of the source, in
the drain stage to the write-readiness guard of the destination.  When that
wait succeeds the same move is attempted again with `written`, `rem` and the
payload unchanged.  No call ever waits on a guard of the intermediate pipe.
And `EAGAIN` is not the error `Copy` returns, unless a readiness guard or a
pipe-end guard itself (not a splice move) produced that value. -/
theorem Copy_eagain_waits (env : Env) (os : List CopyOption) (src dst : List Byte)
    (progress : Option ProgressHandler) (maxLen : Int) (g : Nat) (st : Loop) (w : World)
    (script rest : List Attempt) (n : Int) :
    (env.ready g = none →
        attempts env progress maxLen .source g st w (.fail EAGAIN :: rest) =
          Run.pre [Obs.splice .src .pw maxLen st.written st.rem (-1) (some EAGAIN),
                   Obs.wait .src .read]
            (attempts env progress maxLen .source (g + 1) st w rest)) ∧
      (env.ready g = none →
        attempts env progress maxLen .drain g st w (.fail EAGAIN :: rest) =
          Run.pre [Obs.splice .pr .dst maxLen st.written st.rem (-1) (some EAGAIN),
                   Obs.wait .dst .write]
            (attempts env progress maxLen .drain (g + 1) st w rest)) ∧
      (∀ fd d, Obs.wait fd d ∈ (Copy env os src dst script).log →
        (fd = .src ∧ d = .read) ∨ (fd = .dst ∧ d = .write)) ∧
      ((∀ i, env.ready i ≠ some EAGAIN) → Attempt.guardFail EAGAIN ∉ script →
        (Copy env os src dst script).ret ≠ some (n, some EAGAIN)) := by
  refine ⟨?_, ?_, ?_, ?_⟩
  · intro hr
    rw [attempts_cons_fail, if_neg (by decide), if_pos rfl]
    simp only [hr]
    rfl
  · intro hr
    rw [attempts_cons_fail, if_neg (by decide), if_pos rfl]
    simp only [hr]
    rfl
  · intro fd d ho
    unfold Copy at ho
    rcases copyWithOpts_log_inLoop env _ src dst script _ ho with h | h | h | ⟨cap, _, h⟩
    · cases h
    · cases h
    · cases h
    · exact h
  · intro hready hguard hret
    unfold Copy at hret
    rcases copyWithOpts_err_origin env _ src dst script n EAGAIN hret with
      ⟨s, c, h⟩ | ⟨i, h⟩ | h | ⟨_, _, h⟩
    · simp [EAGAIN] at h
    · exact hready i h
    · exact hguard h
    · exact h rfl

/-- C5, on runs whose source, respectively destination, is not ready at
first. -/
theorem Copy_eagain_waits_witness :
    attempts (quietEnv 4096) none 4096 .source 1 { written := 0, rem := 0 }
        { src := tenBytes, pipe := [], dst := [] } [.fail EAGAIN, .move 4] =
      Run.pre [Obs.splice .src .pw 4096 0 0 (-1) (some EAGAIN), Obs.wait .src .read]
        (attempts (quietEnv 4096) none 4096 .source (1 + 1) { written := 0, rem := 0 }
          { src := tenBytes, pipe := [], dst := [] } [.move 4]) ∧
      attempts (quietEnv 4096) none 4096 .drain 2 { written := 0, rem := 4 }
        { src := [69, 70], pipe := [65, 66, 67, 68], dst := [] } [.fail EAGAIN, .move 4] =
      Run.pre [Obs.splice .pr .dst 4096 0 4 (-1) (some EAGAIN), Obs.wait .dst .write]
        (attempts (quietEnv 4096) none 4096 .drain (2 + 1) { written := 0, rem := 4 }
          { src := [69, 70], pipe := [65, 66, 67, 68], dst := [] } [.move 4]) ∧
      ((Fd.dst = Fd.src ∧ Dir.write = Dir.read) ∨ (Fd.dst = Fd.dst ∧ Dir.write = Dir.write)) ∧
      (Copy (quietEnv 4096) [] tenBytes [] [.move 4, .fail EAGAIN, .move 4]).ret ≠
        some (4, some EAGAIN) :=
  ⟨(Copy_eagain_waits (quietEnv 4096) [] tenBytes [] none 4096 1 { written := 0, rem := 0 }
      { src := tenBytes, pipe := [], dst := [] } [] [.move 4] 0).1 rfl,
   (Copy_eagain_waits (quietEnv 4096) [] tenBytes [] none 4096 2 { written := 0, rem := 4 }
      { src := [69, 70], pipe := [65, 66, 67, 68], dst := [] } [] [.move 4] 0).2.1 rfl,
   (Copy_eagain_waits (quietEnv 4096) [] tenBytes [] none 4096 1 { written := 0, rem := 0 }
      { src := tenBytes, pipe := [], dst := [] } [.move 4, .fail EAGAIN, .move 4] [] 4).2.2.1
      .dst .write (by decide),
   (Copy_eagain_waits (quietEnv 4096) [] tenBytes [] none 4096 1 { written := 0, rem := 0 }
      { src := tenBytes, pipe := [], dst := [] } [.move 4, .fail EAGAIN, .move 4] [] 4).2.2.2
      (by simp [quietEnv]) (by decide)⟩

/-- C6. The descriptors `Copy` closes are exactly the write end and the read
end of the intermediate pipe, once each, on every return path taken after
the pipe was created, whatever the returned error; nothing is closed when
the pipe could not be created, and the source and the destination are never
closed. -/
theorem Copy_closes_pipe_only (env : Env) (os : List CopyOption) (src dst : List Byte)
    (script : List Attempt) :
    closes (Copy env os src dst script).log =
      if env.pipes = none ∧ (Copy env os src dst script).ret.isSome = true
      then [Fd.pw, Fd.pr] else [] := by
  unfold Copy
  rcases copyWithOpts_cases env (resolve os) src dst script with
    ⟨e, hp, heq⟩ | ⟨s, e, obs, hp, _, hobs, heq⟩ | ⟨cap, hok, heq⟩
  · rw [heq]
    simp [hp, Run.done, closes]
  · rw [heq, deferred_log, deferred_ret, pre_ret, pre_log]
    rcases hobs with rfl | rfl <;> simp [hp, Run.done, closes]
  · rw [heq, deferred_log, deferred_ret, pre_ret, pre_log, closes_append, closes_append]
    have h1 : closes [Obs.fcntl (pipeCmd (resolve os)) (resolve os).bufSize] = [] := by
      simp [closes]
    have h2 : closes (pump env (resolve os).progress cap
        { src := src, pipe := [], dst := dst } script).log = [] := by
      unfold pump
      cases env.ready 0 with
      | some e => simp [Run.done, closes]
      | none => exact closes_attempts env _ cap src dst script 1
    rw [h1, h2]
    by_cases hs : (pump env (resolve os).progress cap
        { src := src, pipe := [], dst := dst } script).ret.isSome = true
    · simp [hs, hok.1, closes]
    · simp [hs, closes]

/-- C7. With no `WithBufSize` option (only progress options `hs`, or none
at all) the resolved hint is 0.  For every hint
`h`: when `h <= 0` the only capacity operation `Copy` issues is a query
(`F_GETPIPE_SZ`), never a set, and the run is the one of hint 0 apart from
the ignored argument of the query; when `h > 0` the only capacity operation
issued is a set (`F_SETPIPE_SZ`) with argument `h`.  Once the pipe and the
four raw connections are there and `Control` runs its callback, exactly that
one operation is issued.  In both cases every source-to-pipe move requests
as its length the value which that operation reported. -/
theorem Copy_capacity_operation (env : Env) (os : List CopyOption) (src dst : List Byte)
    (script : List Attempt) (hs : List (Option ProgressHandler)) :
    (resolve (hs.map WithProgressHandler)).bufSize = 0 ∧
      ((resolve os).bufSize ≤ 0 →
        (∀ c a, (c, a) ∈ fcntls (Copy env os src dst script).log → c = F_GETPIPE_SZ) ∧
        (Copy env (os ++ [WithBufSize 0]) src dst script).ret =
          (Copy env os src dst script).ret ∧
        (Copy env (os ++ [WithBufSize 0]) src dst script).world =
          (Copy env os src dst script).world ∧
        (Copy env (os ++ [WithBufSize 0]) src dst script).log.filter (fun o => !o.isFcntl) =
          (Copy env os src dst script).log.filter (fun o => !o.isFcntl)) ∧
      (0 < (resolve os).bufSize →
        ∀ c a, (c, a) ∈ fcntls (Copy env os src dst script).log →
          c = F_SETPIPE_SZ ∧ a = (resolve os).bufSize) ∧
      (env.pipes = none → env.srcConn = none → env.dstConn = none → env.prConn = none →
        env.pwConn = none → env.control = none →
        fcntls (Copy env os src dst script).log =
          [(pipeCmd (resolve os), (resolve os).bufSize)]) ∧
      (∀ len written rem n err,
        Obs.splice .src .pw len written rem n err ∈ (Copy env os src dst script).log →
          FcntlInt env (pipeCmd (resolve os)) (resolve os).bufSize = (len, none)) := by
  have hmem : ∀ c a, (c, a) ∈ fcntls (Copy env os src dst script).log →
      c = pipeCmd (resolve os) ∧ a = (resolve os).bufSize := by
    intro c a hca
    unfold fcntls at hca
    rw [List.mem_filterMap] at hca
    obtain ⟨o, ho, hoc⟩ := hca
    unfold Copy at ho
    rcases copyWithOpts_log_inLoop env _ src dst script o ho with h | h | h | ⟨cap, _, h⟩
    · subst h
      simp at hoc
      exact ⟨hoc.1.symm, hoc.2.symm⟩
    · subst h
      simp at hoc
    · subst h
      simp at hoc
    · cases o with
      | fcntl _ _ => exact absurd h (by simp [Obs.inLoop])
      | splice _ _ _ _ _ _ _ => simp at hoc
      | wait _ _ => simp at hoc
      | check _ _ => simp at hoc
      | progress _ _ => simp at hoc
      | close _ => simp at hoc
  refine ⟨foldl_progress_bufSize hs {}, ?_, ?_, ?_, ?_⟩
  · intro hle
    refine ⟨?_, ?_⟩
    · intro c a hca
      rw [(hmem c a hca).1]
      unfold pipeCmd
      rw [if_neg (by omega)]
    · unfold Copy
      rw [resolve_append]
      exact copyWithOpts_nonpositive env (resolve os) src dst script hle
  · intro hpos c a hca
    refine ⟨?_, (hmem c a hca).2⟩
    rw [(hmem c a hca).1]
    unfold pipeCmd
    rw [if_pos hpos]
  · intro h1 h2 h3 h4 h5 h6
    unfold Copy
    have hx : copyWithOpts env (resolve os) src dst script =
        Run.deferred (Run.pre [Obs.fcntl (pipeCmd (resolve os)) (resolve os).bufSize]
          (match (FcntlInt env (pipeCmd (resolve os)) (resolve os).bufSize).2 with
           | some e => Run.done 0 (some (.wrapped .pipeSize e))
               { src := src, pipe := [], dst := dst }
           | none => pump env (resolve os).progress
               (FcntlInt env (pipeCmd (resolve os)) (resolve os).bufSize).1
               { src := src, pipe := [], dst := dst } script)) := by
      unfold copyWithOpts
      simp only [h1, h2, h3, h4, h5, h6]
    rw [hx, deferred_log, pre_log, fcntls_append, fcntls_append]
    have hm : fcntls
        (match (FcntlInt env (pipeCmd (resolve os)) (resolve os).bufSize).2 with
           | some e => Run.done 0 (some (.wrapped .pipeSize e))
               { src := src, pipe := [], dst := dst }
           | none => pump env (resolve os).progress
               (FcntlInt env (pipeCmd (resolve os)) (resolve os).bufSize).1
               { src := src, pipe := [], dst := dst } script).log = [] := by
      cases h7 : (FcntlInt env (pipeCmd (resolve os)) (resolve os).bufSize).2 with
      | some e => simp [fcntls, Run.done]
      | none =>
        obtain ⟨v, hv⟩ := FcntlInt_ok env _ _ h7
        simp only [hv]
        exact fcntls_pump env _ v src dst script
    rw [hm]
    split <;> simp [fcntls]
  · intro len written rem n err ho
    unfold Copy at ho
    rcases copyWithOpts_log_inLoop env _ src dst script _ ho with h | h | h | ⟨cap, hok, h⟩
    · cases h
    · cases h
    · cases h
    · rw [hok.2.2.2.2.2.2, h.1]

/-- C7, with hint 4096 (the one capacity operation is a set with argument
4096, and the source-to-pipe move requests the 8192 it reported) and with
hint -5 (the capacity operation is a query). -/
theorem Copy_capacity_operation_witness :
    fcntls (Copy (quietEnv 8192) [WithBufSize 4096] tenBytes [] shortScript).log =
        [(pipeCmd (resolve [WithBufSize 4096]), (resolve [WithBufSize 4096]).bufSize)] ∧
      ((1031 : Int) = F_SETPIPE_SZ ∧ (4096 : Int) = (resolve [WithBufSize 4096]).bufSize) ∧
      FcntlInt (quietEnv 8192) (pipeCmd (resolve [WithBufSize 4096]))
        (resolve [WithBufSize 4096]).bufSize = (8192, none) ∧
      (1032 : Int) = F_GETPIPE_SZ :=
  ⟨(Copy_capacity_operation (quietEnv 8192) [WithBufSize 4096] tenBytes [] shortScript
      []).2.2.2.1 rfl rfl rfl rfl rfl rfl,
   (Copy_capacity_operation (quietEnv 8192) [WithBufSize 4096] tenBytes [] shortScript
      []).2.2.1 (by decide) 1031 4096 (by decide),
   (Copy_capacity_operation (quietEnv 8192) [WithBufSize 4096] tenBytes [] shortScript
      []).2.2.2.2 8192 0 0 10 none (by decide),
   ((Copy_capacity_operation (quietEnv 8192) [WithBufSize (-5)] tenBytes [] shortScript
      []).2.1 (by decide)).1 1032 (-5) (by decide)⟩

/-- C8. Let the set-up succeed, and let the script start with any number of
interrupted or not-ready source-to-pipe attempts (each readiness wait they
cause succeeding) followed by a move that succeeds with zero bytes.  Then
`Copy` returns `(0, nil)`, the progress handler is never called, and no
pipe-to-destination move is attempted. -/
theorem Copy_immediate_eof (env : Env) (os : List CopyOption) (src dst : List Byte)
    (cap : Nat) (front post : List Attempt) (k : Nat)
    (hsetup : setupOk env (resolve os) cap)
    (hfront : ∀ a ∈ front, a.transient = true)
    (hready : ∀ i, i ≤ front.count (Attempt.fail EAGAIN) → env.ready i = none)
    (hzero : moved k cap src.length = 0) :
    (Copy env os src dst (front ++ Attempt.move k :: post)).ret = some (0, none) ∧
      progressArgs (Copy env os src dst (front ++ Attempt.move k :: post)).log = [] ∧
      ∀ len written rem n err, Obs.splice .pr .dst len written rem n err ∉
        (Copy env os src dst (front ++ Attempt.move k :: post)).log := by
  unfold Copy
  rcases copyWithOpts_cases env (resolve os) src dst (front ++ Attempt.move k :: post) with
    ⟨e, he, _⟩ | ⟨_, _, _, _, hno, _⟩ | ⟨cap1, hs1, heq⟩
  · rw [hsetup.1] at he
    cases he
  · exact absurd hsetup (hno cap)
  · have hc : cap1 = cap := by
      have h1 := hs1.2.2.2.2.2.2
      have h2 := hsetup.2.2.2.2.2.2
      rw [h1] at h2
      simpa using h2
    subst hc
    have h0 : env.ready 0 = none := hready 0 (Nat.zero_le _)
    obtain ⟨a1, a2, _, a4⟩ := attempts_eof env (resolve os).progress cap1 k post front 1
      { written := 0, rem := 0 } { src := src, pipe := [], dst := dst } hfront
      (fun i hi => hready (1 + i) (by omega)) hzero
    rw [heq]
    unfold pump
    simp only [h0]
    refine ⟨?_, ?_, ?_⟩
    · rw [deferred_ret, pre_ret, a1]
    · rw [progressArgs_deferred, progressArgs_pre_fcntl, a2]
    · intro len written rem n err hmem
      rw [deferred_log, pre_log] at hmem
      simp only [List.mem_append] at hmem
      rcases hmem with (hmem | hmem) | hmem
      · simp at hmem
      · exact a4 _ _ _ _ _ hmem
      · split at hmem <;> simp at hmem

/-- C8, on an empty source that is first not ready, then interrupted. -/
theorem Copy_immediate_eof_witness :
    (Copy (quietEnv 4096) [WithProgressHandler (some 7)] [] tenBytes
        ([.fail EAGAIN, .fail EINTR] ++ Attempt.move 4096 :: [.move 1])).ret = some (0, none) ∧
      progressArgs (Copy (quietEnv 4096) [WithProgressHandler (some 7)] [] tenBytes
        ([.fail EAGAIN, .fail EINTR] ++ Attempt.move 4096 :: [.move 1])).log = [] ∧
      ∀ len written rem n err, Obs.splice .pr .dst len written rem n err ∉
        (Copy (quietEnv 4096) [WithProgressHandler (some 7)] [] tenBytes
          ([.fail EAGAIN, .fail EINTR] ++ Attempt.move 4096 :: [.move 1])).log :=
  Copy_immediate_eof (quietEnv 4096) [WithProgressHandler (some 7)] [] tenBytes 65536
    [.fail EAGAIN, .fail EINTR] [.move 1] 4096 (by decide) (by decide) (fun _ _ => rfl)
    (by decide)

/-- C9. At every splice attempt and at every evaluation of the loop
condition `rem > 0`, in every run and however far it got, `rem` is between 0
and the effective capacity; and `rem` is 0 at every source-to-pipe
attempt. -/
theorem Copy_pending_bounds (env : Env) (os : List CopyOption) (src dst : List Byte)
    (script : List Attempt) :
    (∀ rfd wfd len written rem n err,
        Obs.splice rfd wfd len written rem n err ∈ (Copy env os src dst script).log →
          0 ≤ rem ∧ rem ≤ effectiveCapacity env (resolve os) ∧
            (rfd = .src ∨ wfd = .pw → rem = 0)) ∧
      (∀ written rem, Obs.check written rem ∈ (Copy env os src dst script).log →
          0 ≤ rem ∧ rem ≤ effectiveCapacity env (resolve os)) := by
  constructor
  · intro rfd wfd len written rem n err ho
    unfold Copy at ho
    rcases copyWithOpts_log_inLoop env _ src dst script _ ho with h | h | h | ⟨cap, hok, h⟩
    · cases h
    · cases h
    · cases h
    · have hcap : effectiveCapacity env (resolve os) = cap := by
        unfold effectiveCapacity
        rw [hok.2.2.2.2.2.2]
      rw [hcap]
      obtain ⟨_, h1, h2, h3, _⟩ := h
      refine ⟨h1, h2, ?_⟩
      rintro (hs | hs)
      · rcases h3 with ⟨_, _, h0⟩ | ⟨hr, _, _⟩
        · exact h0
        · rw [hs] at hr
          cases hr
      · rcases h3 with ⟨_, _, h0⟩ | ⟨_, hw, _⟩
        · exact h0
        · rw [hs] at hw
          cases hw
  · intro written rem ho
    unfold Copy at ho
    rcases copyWithOpts_log_inLoop env _ src dst script _ ho with h | h | h | ⟨cap, hok, h⟩
    · cases h
    · cases h
    · cases h
    · have hcap : effectiveCapacity env (resolve os) = cap := by
        unfold effectiveCapacity
        rw [hok.2.2.2.2.2.2]
      rw [hcap]
      exact h

/-- C9, at the first pipe-to-destination attempt of a run on ten bytes, at
the evaluation of the loop condition that follows it, and at the first
source-to-pipe attempt. -/
theorem Copy_pending_bounds_witness :
    ((0 : Int) ≤ 10 ∧ (10 : Int) ≤ effectiveCapacity (quietEnv 4096) (resolve [WithBufSize 4096]) ∧
        (Fd.pr = Fd.src ∨ Fd.dst = Fd.pw → (10 : Int) = 0)) ∧
      ((0 : Int) ≤ 0 ∧ (0 : Int) ≤ effectiveCapacity (quietEnv 4096) (resolve [WithBufSize 4096])) ∧
      ((0 : Int) ≤ 0 ∧ (0 : Int) ≤ effectiveCapacity (quietEnv 4096) (resolve [WithBufSize 4096]) ∧
        (Fd.src = Fd.src ∨ Fd.pw = Fd.pw → (0 : Int) = 0)) :=
  ⟨(Copy_pending_bounds (quietEnv 4096) [WithBufSize 4096] tenBytes [] shortScript).1
      .pr .dst 4096 0 10 10 none (by decide),
   (Copy_pending_bounds (quietEnv 4096) [WithBufSize 4096] tenBytes [] shortScript).2
      10 0 (by decide),
   (Copy_pending_bounds (quietEnv 4096) [WithBufSize 4096] tenBytes [] shortScript).1
      .src .pw 4096 0 0 10 none (by decide)⟩

/-- C10 fails as stated: with capacity 4096 and ten bytes pending in the
pipe, the pipe-to-destination move requests 4096 bytes, more than the ten
bytes pending. -/
theorem Copy_drain_asks_beyond_pending :
    ¬ (∀ len written rem n err,
        Obs.splice .pr .dst len written rem n err ∈
            (Copy (quietEnv 4096) [WithBufSize 4096] tenBytes [] shortScript).log →
          len ≤ min (effectiveCapacity (quietEnv 4096) (resolve [WithBufSize 4096])) rem) := by
  intro h
  have := h 4096 0 10 10 none (by decide)
  revert this
  decide

/-- C10, amended. Every pipe-to-destination splice move requests exactly the
effective capacity as its length, whatever is pending; the number of bytes a
successful one moves is at most the effective capacity and at most the
pending count `rem`. -/
theorem Copy_drain_request (env : Env) (os : List CopyOption) (src dst : List Byte)
    (script : List Attempt) (len written rem n : Int) (err : Option Err)
    (ho : Obs.splice .pr .dst len written rem n err ∈ (Copy env os src dst script).log) :
    len = effectiveCapacity env (resolve os) ∧
      (err = none → 0 ≤ n ∧ n ≤ min (effectiveCapacity env (resolve os)) rem) := by
  unfold Copy at ho
  rcases copyWithOpts_log_inLoop env _ src dst script _ ho with h | h | h | ⟨cap, hok, h⟩
  · cases h
  · cases h
  · cases h
  · have hcap : effectiveCapacity env (resolve os) = cap := by
      unfold effectiveCapacity
      rw [hok.2.2.2.2.2.2]
    rw [hcap]
    obtain ⟨h1, _, _, _, h5⟩ := h
    refine ⟨h1, fun he => ?_⟩
    obtain ⟨a, b, c⟩ := h5 he
    exact ⟨a, le_min b (c rfl)⟩

/-- C10 amended, at the run of the counterexample: 4096 bytes are requested
and ten are moved. -/
theorem Copy_drain_request_witness :
    (4096 : Int) = effectiveCapacity (quietEnv 4096) (resolve [WithBufSize 4096]) ∧
      ((none : Option Err) = none →
        (0 : Int) ≤ 10 ∧
          (10 : Int) ≤ min (effectiveCapacity (quietEnv 4096) (resolve [WithBufSize 4096])) 10) :=
  Copy_drain_request (quietEnv 4096) [WithBufSize 4096] tenBytes [] shortScript
    4096 0 10 10 none (by decide)

end Splice
